import Mathlib

/-!
Verification development for the ASCII rendering backend
(`src/layout/src/backends/ascii_art.rs`).

The Rust code is shallowly embedded as follows.

* `f64` coordinates are idealised as exact rationals (`ℚ`); `f64::round`
  (round half away from zero) is `roundHalfAway`.  `usize`/`isize` become
  `ℕ`/`ℤ`.  Rust `isize` division (truncation toward zero) is `Int.tdiv`.
* The mutable `ASCIIWriter` becomes a record threaded explicitly through
  every operation.  `finalize`, a `&self` method, becomes the pure
  state-passing function `finalizeS`.
* Every rasterizer mutates the grid exclusively through the bounds-checked
  setter `set_with_color`; the sequence of setter calls a rasterizer makes
  is a pure function of its arguments (the grid contents are never read
  back), so each rasterizer is embedded as a producer of its list of
  setter calls (`SetCall`), and an operation applies that list in order
  with `applyWrites`.  This is observationally identical to the
  interleaved Rust loops.
* Types from sibling modules that are not part of the given source
  (`core::geometry::Point`, `core::style::StyleAttr`,
  `core::color::Color`, `termcolor::Color`) are modelled from the spec,
  see their doc comments.
* The Bresenham loop is embedded with explicit fuel; the theorems prove
  that any fuel beyond `max |dx| |dy|` yields the same (complete) result,
  which is the termination statement for the unbounded Rust loop.
* `slope.atan().to_degrees()` threshold tests are embedded by the exactly
  equivalent algebraic comparisons: for `dx ≠ 0`,
  `|atan (dy/dx)| < 22.5°  ↔  |dy| < (√2 - 1)·|dx| ↔ (|dy|+|dx|)² < 2·dx²`
  and
  `|atan (dy/dx)| < 67.5°  ↔  |dy| < (√2 + 1)·|dx| ↔ (|dy|-|dx|)² < 2·dx²`
  (the last equivalence uses `dx ≠ 0`), since `tan 22.5° = √2 - 1` and
  `tan 67.5° = √2 + 1` and `atan` is strictly monotone.  These are exact
  rational decision procedures, not approximations.
* `f64::sqrt` (used only by the ellipse fill, whose cell pattern no claim
  here depends on) has no exact rational counterpart; `ratSqrtApprox` is
  a stand-in rational square root.  No theorem below inspects the values
  it produces.
-/

/-- One of the eight `termcolor::Color` variants the backend can ever store
(`style_color_to_term_color` produces no others).  Modelled from the spec:
"a fixed small named-color palette". -/
inductive TermColor : Type
  | black
  | blue
  | green
  | red
  | cyan
  | magenta
  | yellow
  | white
  deriving DecidableEq, Repr

/-- A grid cell: character together with optional color. -/
abbrev Cell : Type := Char × Option TermColor

def blankCell : Cell := (' ', none)

/-- Modelled from the spec: a `core::geometry::Point` is a pair of
floating-point coordinates (idealised as rationals), Y growing downward. -/
abbrev Point : Type := ℚ × ℚ

def Point.sub (a b : Point) : Point := (a.1 - b.1, a.2 - b.2)

/-- Modelled from the spec: a `core::color::Color` reaches this backend only
through its extracted RGB channels (`extract_rgb_from_color`), so a style
color is represented by that `(r, g, b)` triple of bytes. -/
abbrev StyleColor : Type := ℕ × ℕ × ℕ

/-- Modelled from the spec: of `core::style::StyleAttr` the backend reads
only the optional fill color and the font size (reused as the
cells-per-unit scale factor); all other style attributes are ignored. -/
structure StyleAttr : Type where
  fill_color : Option StyleColor
  font_size : ℕ
  deriving DecidableEq, Repr

/-- A recorded clip region: (top-left, size, rounded_px); never applied. -/
abbrev Clip : Type := Point × Point × ℕ

/-- The backend state (struct `ASCIIWriter`). -/
structure ASCIIWriter : Type where
  grid : List (List Cell)
  width : ℕ
  height : ℕ
  scale : ℚ
  clips : List Clip
  is_terminal : Bool
  use_colors : Bool

namespace ASCIIWriter

/-- `ASCIIWriter::new`; the ambient `atty::is(Stdout)` result is the
parameter `tty` (it initialises both flags). -/
def new (tty : Bool) : ASCIIWriter :=
  { grid := [], width := 0, height := 0, scale := 20
    clips := [], is_terminal := tty, use_colors := tty }

def new_with_terminal_setting (tty : Bool) : ASCIIWriter :=
  { grid := [], width := 0, height := 0, scale := 6
    clips := [], is_terminal := tty, use_colors := tty }

def new_with_color_setting (tty uc : Bool) : ASCIIWriter :=
  { grid := [], width := 0, height := 0, scale := 6
    clips := [], is_terminal := tty, use_colors := uc }

/-- `ASCIIWriter::uses_colors`. -/
def uses_colors (s : ASCIIWriter) : Bool := s.use_colors

/-- `ASCIIWriter::set_use_colors`: only effective for terminal output. -/
def set_use_colors (s : ASCIIWriter) (uc : Bool) : ASCIIWriter :=
  { s with use_colors := uc && s.is_terminal }

end ASCIIWriter

/-- `Vec::resize` / `resize_with`: truncate or pad to exactly `n`. -/
def resizePad {α : Type} (l : List α) (n : ℕ) (pad : α) : List α :=
  l.take n ++ List.replicate (n - l.length) pad

/-- `ASCIIWriter::ensure_size`: grow the grid to cover cell `(x, y)`. -/
def ensure_size (s : ASCIIWriter) (x y : ℕ) : ASCIIWriter :=
  let s1 :=
    if s.height ≤ y then
      { s with
        grid := resizePad s.grid (y + 1) (List.replicate (max s.width 1) blankCell)
        height := y + 1 }
    else s
  if s1.width ≤ x then
    { s1 with
      grid := s1.grid.map (fun row => resizePad row (x + 1) blankCell)
      width := x + 1 }
  else s1

/-- `f64::round`: round half away from zero. -/
def roundHalfAway (q : ℚ) : ℤ :=
  if 0 ≤ q then ⌊q + 1/2⌋ else -⌊1/2 - q⌋

/-- `ASCIIWriter::to_ixy`: map a point to integer cell coordinates. -/
def to_ixy (scale : ℚ) (p : Point) : ℤ × ℤ :=
  (roundHalfAway (p.1 / scale), roundHalfAway (p.2 / scale))

/-- `ASCIIWriter::clamp_nonneg`. -/
def clamp_nonneg (ix iy : ℤ) : Option (ℕ × ℕ) :=
  if ix < 0 ∨ iy < 0 then none else some (ix.toNat, iy.toNat)

/-- `ASCIIWriter::set_with_color`: the single bounds-checked setter. -/
def set_with_color (s : ASCIIWriter) (ix iy : ℤ) (ch : Char)
    (color : Option TermColor) : ASCIIWriter :=
  match clamp_nonneg ix iy with
  | none => s
  | some (x, y) =>
    let s1 := ensure_size s x y
    { s1 with grid := s1.grid.set y (((s1.grid.getD y []).set x (ch, color))) }

/-- One recorded call to `set_with_color`: `(ix, iy, ch, color)`. -/
abbrev SetCall : Type := ℤ × ℤ × Char × Option TermColor

def applySet (s : ASCIIWriter) (w : SetCall) : ASCIIWriter :=
  set_with_color s w.1 w.2.1 w.2.2.1 w.2.2.2

def applyWrites (s : ASCIIWriter) (ws : List SetCall) : ASCIIWriter :=
  ws.foldl applySet s

/-- `ASCIIWriter::color_to_ansi`. -/
def color_to_ansi : TermColor → ℕ
  | .black => 30
  | .blue => 34
  | .green => 32
  | .red => 31
  | .cyan => 36
  | .magenta => 35
  | .yellow => 33
  | .white => 37

def escReset : String := "\x1b[0m"

def escSet (c : TermColor) : String := "\x1b[" ++ toString (color_to_ansi c) ++ "m"

/-- Trailing-blank trimming of one row (the `while end > 0 && … == ' '`
scan): drop the longest suffix of cells whose character is a space. -/
def trimRow (row : List Cell) : List Cell :=
  (row.reverse.dropWhile (fun c => c.1 == ' ')).reverse

/-- `ASCIIWriter::finalize_plain`. -/
def finalize_plain (s : ASCIIWriter) : String :=
  String.join (s.grid.map (fun row => ((trimRow row).map Prod.fst).asString ++ "\n"))

/-- One emission of the colored serializer: a reset escape, a
foreground-color-set escape, or a plain glyph. -/
inductive Tok : Type
  | reset
  | setColor (c : TermColor)
  | glyph (ch : Char)
  deriving DecidableEq, Repr

/-- The body of the `finalize_with_colors` row loop, with `cur` the
`current_color` accumulator; emits the trailing reset when the row is
exhausted with a color still active. -/
def rowToksFrom (cur : Option TermColor) : List Cell → List Tok
  | [] => if cur.isSome then [Tok.reset] else []
  | c :: rest =>
    (if c.2 = cur then []
     else
       (if cur.isSome then [Tok.reset] else []) ++
       (match c.2 with
        | some col => [Tok.setColor col]
        | none => []))
    ++ Tok.glyph c.1 :: rowToksFrom c.2 rest

def renderTok : Tok → String
  | .reset => escReset
  | .setColor c => escSet c
  | .glyph ch => String.singleton ch

/-- `ASCIIWriter::finalize_with_colors`. -/
def finalize_with_colors (s : ASCIIWriter) : String :=
  String.join (s.grid.map (fun row =>
    String.join ((rowToksFrom none (trimRow row)).map renderTok) ++ "\n"))

/-- `ASCIIWriter::finalize`. -/
def finalize (s : ASCIIWriter) : String :=
  if s.is_terminal && s.use_colors then finalize_with_colors s else finalize_plain s

/-- The `&self` method `finalize` in state-passing form: it returns its
result together with the (unchanged) receiver. -/
def finalizeS (s : ASCIIWriter) : String × ASCIIWriter := (finalize s, s)

/-- `ASCIIWriter::get_line_char`.  The two `< 0.001` guards are the
source's near-vertical / near-horizontal epsilon tests; the remaining
angle tests are the exact algebraic forms of the `22.5°` / `67.5°`
comparisons (see the file comment). -/
def get_line_char (p0 p1 : Point) : Char :=
  let dx := p1.1 - p0.1
  let dy := p1.2 - p0.2
  if |dx| < 1/1000 then '|'
  else if |dy| < 1/1000 then '-'
  else if (|dy| + |dx|)^2 < 2*dx^2 then '-'
  else if (|dy| - |dx|)^2 < 2*dx^2 then
    (if (0 < dx ∧ 0 < dy) ∨ (dx < 0 ∧ dy < 0) then '\\' else '/')
  else '|'

/-- The Bresenham loop of `draw_line_segment`, with explicit fuel.  Each
iteration visits `(x0, y0)`, stops on reaching `(x1, y1)`, else advances
`x0`/`y0` by the two `e2` tests exactly as in the source. -/
def bresAux (x1 y1 sx sy dx dy : ℤ) (x0 y0 err : ℤ) : ℕ → List (ℤ × ℤ)
  | 0 => []
  | f + 1 =>
    (x0, y0) ::
      (if x0 = x1 ∧ y0 = y1 then []
       else
         bresAux x1 y1 sx sy dx dy
           (if dy ≤ 2 * err then x0 + sx else x0)
           (if 2 * err ≤ dx then y0 + sy else y0)
           (err + (if dy ≤ 2 * err then dy else 0) + (if 2 * err ≤ dx then dx else 0))
           f)

/-- The Bresenham traversal from `(x0, y0)` to `(x1, y1)` with a given
fuel budget (the source's loop is unbounded; `bresPoints` instantiates
the fuel at `max |dx| |dy| + 1`, proved sufficient below). -/
def bresPointsFuel (x0 y0 x1 y1 : ℤ) (f : ℕ) : List (ℤ × ℤ) :=
  let dx := |x1 - x0|
  let sx : ℤ := if x0 < x1 then 1 else -1
  let dy := -|y1 - y0|
  let sy : ℤ := if y0 < y1 then 1 else -1
  bresAux x1 y1 sx sy dx dy x0 y0 (dx + dy) f

def bresPoints (x0 y0 x1 y1 : ℤ) : List (ℤ × ℤ) :=
  bresPointsFuel x0 y0 x1 y1 ((max |x1 - x0| |y1 - y0|).toNat + 1)

/-- `ASCIIWriter::draw_line_segment`: cells visited between the mapped
endpoints, all written with glyph `ch` and no color. -/
def draw_line_segment_writes (scale : ℚ) (p0 p1 : Point) (ch : Char) : List SetCall :=
  let q0 := to_ixy scale p0
  let q1 := to_ixy scale p1
  (bresPoints q0.1 q0.2 q1.1 q1.2).map (fun q => (q.1, q.2, ch, none))

/-- The inclusive integer range `[a, b]` (empty when `b < a`). -/
def intRangeIncl (a b : ℤ) : List ℤ :=
  (List.range (b + 1 - a).toNat).map (fun t => a + t)

/-- The half-open integer range `[a, b)`. -/
def intRangeExcl (a b : ℤ) : List ℤ :=
  (List.range (b - a).toNat).map (fun t => a + t)

/-- `ASCIIWriter::draw_hline` (fills `[min, max]` inclusive on row `y`). -/
def draw_hline_writes (x0 x1 y : ℤ) (ch : Char) : List SetCall :=
  (intRangeIncl (min x0 x1) (max x0 x1)).map (fun x => (x, y, ch, none))

/-- `ASCIIWriter::draw_vline`. -/
def draw_vline_writes (x y0 y1 : ℤ) (ch : Char) : List SetCall :=
  (intRangeIncl (min y0 y1) (max y0 y1)).map (fun y => (x, y, ch, none))

/-- `ASCIIWriter::rect_fill`: row-major interior fill. -/
def rect_fill_writes (scale : ℚ) (top_left size : Point) (fill : Char)
    (color : Option TermColor) : List SetCall :=
  let p := to_ixy scale top_left
  let w := max (roundHalfAway (size.1 / scale)) 0
  let h := max (roundHalfAway (size.2 / scale)) 0
  (List.range h.toNat).flatMap (fun yy =>
    (List.range w.toNat).map (fun xx =>
      (p.1 + (xx : ℤ), p.2 + (yy : ℤ), fill, color)))

/-- `ASCIIWriter::rect_outline`: corners, then horizontal edges when
`w > 2`, then vertical edges when `h > 2`; nothing when `w ≤ 0 ∨ h ≤ 0`. -/
def rect_outline_writes (scale : ℚ) (top_left size : Point) : List SetCall :=
  let p := to_ixy scale top_left
  let w := max (roundHalfAway (size.1 / scale)) 0
  let h := max (roundHalfAway (size.2 / scale)) 0
  if w ≤ 0 ∨ h ≤ 0 then []
  else
    [(p.1, p.2, '+', none), (p.1 + w - 1, p.2, '+', none),
     (p.1, p.2 + h - 1, '+', none), (p.1 + w - 1, p.2 + h - 1, '+', none)]
    ++ (if 2 < w then
          draw_hline_writes (p.1 + 1) (p.1 + w - 2) p.2 '-'
          ++ draw_hline_writes (p.1 + 1) (p.1 + w - 2) (p.2 + h - 1) '-'
        else [])
    ++ (if 2 < h then
          draw_vline_writes p.1 (p.2 + 1) (p.2 + h - 2) '|'
          ++ draw_vline_writes (p.1 + w - 1) (p.2 + 1) (p.2 + h - 2) '|'
        else [])

/-- `ASCIIWriter::ellipse_outline`. -/
def ellipse_outline_writes (scale : ℚ) (center size : Point) : List SetCall :=
  let a := max (size.1 / 2) 0
  let b := max (size.2 / 2) 0
  if a ≤ 0 ∨ b ≤ 0 then []
  else
    let c := to_ixy scale center
    let w := roundHalfAway ((a * 2) / scale)
    let h := roundHalfAway ((b * 2) / scale)
    if w ≤ 2 ∨ h ≤ 2 then [(c.1, c.2, 'o', none)]
    else
      let left := c.1 - Int.tdiv w 2
      let right := c.1 + Int.tdiv w 2
      let top := c.2 - Int.tdiv h 2
      let bottom := c.2 + Int.tdiv h 2
      ((intRangeExcl (left + 1) right).flatMap (fun x =>
        [(x, top, '_', none), (x, bottom, '_', none)]))
      ++ ((intRangeExcl (top + 1) bottom).flatMap (fun y =>
        [(left, y, '|', none), (right, y, '|', none)]))
      ++ (if 3 < w ∧ 3 < h then
            [(left, top, '/', none), (right, top, '\\', none),
             (left, bottom, '\\', none), (right, bottom, '/', none)]
          else
            [(left, top, '+', none), (right, top, '+', none),
             (left, bottom, '+', none), (right, bottom, '+', none)])

/-- Stand-in for `f64::sqrt` (see the file comment): a rational
approximation of the square root, used only by the ellipse fill. -/
def ratSqrtApprox (q : ℚ) : ℚ :=
  if q ≤ 0 then 0 else ((Nat.sqrt (q.num.toNat * q.den) : ℚ) / (q.den : ℚ))

/-- `ASCIIWriter::ellipse_fill`. -/
def ellipse_fill_writes (scale : ℚ) (center size : Point) (ch : Char)
    (color : Option TermColor) : List SetCall :=
  let a := max (size.1 / 2) 0
  let b := max (size.2 / 2) 0
  if a ≤ 0 ∨ b ≤ 0 then []
  else
    let cy0 := ⌊(center.2 - b) / scale⌋
    let cy1 := ⌈(center.2 + b) / scale⌉
    (intRangeIncl cy0 cy1).flatMap (fun iy =>
      let yy := (iy : ℚ) * scale
      let dy := yy - center.2
      let inside := 1 - dy * dy / (b * b)
      if 0 ≤ inside then
        let span := a * ratSqrtApprox inside
        (intRangeIncl ⌊(center.1 - span) / scale⌋ ⌈(center.1 + span) / scale⌉).map
          (fun ix => (ix, iy, ch, color))
      else [])

/-- `str::lines`, without `\r` handling (no claim involves it): split on
newline characters, a trailing newline producing no final empty line. -/
def splitNl : List Char → List (List Char)
  | [] => [[]]
  | c :: rest =>
    let r := splitNl rest
    if c = '\n' then [] :: r
    else
      match r with
      | [] => [[c]]
      | h :: t => (c :: h) :: t

def strLines (cs : List Char) : List (List Char) :=
  if cs = [] then []
  else if cs.getLast? = some '\n' then (splitNl cs).dropLast
  else splitNl cs

/-- `ASCIIWriter::text_at_center`: vertically centered block, each line
horizontally centered by character count. -/
def text_at_center_writes (scale : ℚ) (center : Point) (text : List Char) : List SetCall :=
  let lines := if text = [] then [[]] else strLines text
  let c := to_ixy scale center
  let n := lines.length
  let start_y := c.2 - ((n - 1) / 2 : ℕ)
  (lines.enum.flatMap (fun li =>
    let line := li.2
    let start_x := c.1 - ((line.length / 2 : ℕ) : ℤ)
    let y := start_y + (li.1 : ℤ)
    line.enum.map (fun jc => (start_x + (jc.1 : ℤ), y, jc.2, none))))

/-- `ASCIIWriter::head_char`: arrowhead glyph by dominant axis. -/
def head_char (dx dy : ℚ) : Char :=
  if |dy| ≤ |dx| then (if 0 ≤ dx then '>' else '<')
  else if 0 ≤ dy then 'v'
  else '^'

/-- `ASCIIWriter::draw_polyline`: straight segments between consecutive
anchors. -/
def draw_polyline_writes (scale : ℚ) (anchors : List Point) (ch : Char) : List SetCall :=
  (anchors.zip anchors.tail).flatMap (fun pq =>
    draw_line_segment_writes scale pq.1 pq.2 ch)

/-- `RenderBackend::draw_arrow` for `ASCIIWriter`: polyline, optional
heads (only when at least two anchors exist), then the centered label at
the midpoint anchor when the label is non-empty. -/
def draw_arrow_writes (scale : ℚ) (path : List (Point × Point)) (dashed : Bool)
    (head : Bool × Bool) (label : List Char) : List SetCall :=
  if path = [] then []
  else
    let anchors := path.map Prod.fst
    let seg := if dashed then '.' else '*'
    draw_polyline_writes scale anchors seg
    ++ (if 2 ≤ anchors.length then
          (if head.1 then
            let dir := Point.sub (anchors.getD 1 (0, 0)) (anchors.getD 0 (0, 0))
            let q := to_ixy scale (anchors.getD 0 (0, 0))
            [(q.1, q.2, head_char dir.1 dir.2, none)]
          else [])
          ++ (if head.2 then
            let n := anchors.length
            let dir := Point.sub (anchors.getD (n - 1) (0, 0)) (anchors.getD (n - 2) (0, 0))
            let q := to_ixy scale (anchors.getD (n - 1) (0, 0))
            [(q.1, q.2, head_char dir.1 dir.2, none)]
          else [])
        else [])
    ++ (if label ≠ [] then
          text_at_center_writes scale (anchors.getD (anchors.length / 2) (0, 0)) label
        else [])

/-- `ASCIIWriter::style_color_to_term_color`: RGB-threshold bucketing of
the extracted channels into the eight terminal colors. -/
def style_color_to_term_color : Option StyleColor → Option TermColor
  | none => none
  | some c =>
    if 128 < c.1 ∧ c.2.1 < 128 ∧ c.2.2 < 128 then some .red
    else if c.1 < 128 ∧ 128 < c.2.1 ∧ c.2.2 < 128 then some .green
    else if c.1 < 128 ∧ c.2.1 < 128 ∧ 128 < c.2.2 then some .blue
    else if 128 < c.1 ∧ 128 < c.2.1 ∧ c.2.2 < 128 then some .yellow
    else if 128 < c.1 ∧ c.2.1 < 128 ∧ 128 < c.2.2 then some .magenta
    else if c.1 < 128 ∧ 128 < c.2.1 ∧ 128 < c.2.2 then some .cyan
    else if 200 < c.1 ∧ 200 < c.2.1 ∧ 200 < c.2.2 then some .white
    else if c.1 < 100 ∧ c.2.1 < 100 ∧ c.2.2 < 100 then some .black
    else some .white

/-- One call through the `RenderBackend` capability interface (plus the
inherent mutator `set_use_colors`). -/
inductive Op : Type
  | draw_rect (xy size : Point) (look : StyleAttr) (clip : Option ℕ)
  | draw_line (start stop : Point) (look : StyleAttr)
  | draw_circle (xy size : Point) (look : StyleAttr)
  | draw_text (xy : Point) (text : List Char) (look : StyleAttr)
  | draw_arrow (path : List (Point × Point)) (dashed : Bool)
      (head : Bool × Bool) (look : StyleAttr) (label : List Char)
  | create_clip (xy size : Point) (rounded_px : ℕ)
  | set_use_colors (uc : Bool)

/-- The setter calls an operation performs, given the pre-state (each draw
call first sets `scale` to the call's font size, so every coordinate is
mapped with that scale; the fill decisions read the terminal/color
flags). -/
def opWriteList (s : ASCIIWriter) : Op → List SetCall
  | .draw_rect xy size look _clip =>
    (if look.fill_color.isSome && s.is_terminal then
      rect_fill_writes (look.font_size : ℚ) xy size '█'
        (if s.use_colors then style_color_to_term_color look.fill_color else none)
    else [])
    ++ rect_outline_writes (look.font_size : ℚ) xy size
  | .draw_line start stop look =>
    draw_line_segment_writes (look.font_size : ℚ) start stop (get_line_char start stop)
  | .draw_circle xy size look =>
    (if look.fill_color.isSome && s.is_terminal then
      ellipse_fill_writes (look.font_size : ℚ) xy size '●'
        (if s.use_colors then style_color_to_term_color look.fill_color else none)
    else [])
    ++ ellipse_outline_writes (look.font_size : ℚ) xy size
  | .draw_text xy text look =>
    text_at_center_writes (look.font_size : ℚ) xy text
  | .draw_arrow path dashed head look label =>
    draw_arrow_writes (look.font_size : ℚ) path dashed head label
  | .create_clip _ _ _ => []
  | .set_use_colors _ => []

/-- Apply one operation to the backend state. -/
def applyOp (s : ASCIIWriter) (op : Op) : ASCIIWriter :=
  match op with
  | .create_clip xy size r => { s with clips := s.clips ++ [(xy, size, r)] }
  | .set_use_colors uc => s.set_use_colors uc
  | .draw_rect _ _ look _ =>
    applyWrites { s with scale := (look.font_size : ℚ) } (opWriteList s op)
  | .draw_line _ _ look =>
    applyWrites { s with scale := (look.font_size : ℚ) } (opWriteList s op)
  | .draw_circle _ _ look =>
    applyWrites { s with scale := (look.font_size : ℚ) } (opWriteList s op)
  | .draw_text _ _ look =>
    applyWrites { s with scale := (look.font_size : ℚ) } (opWriteList s op)
  | .draw_arrow _ _ _ look _ =>
    applyWrites { s with scale := (look.font_size : ℚ) } (opWriteList s op)

def applyOps (s : ASCIIWriter) (ops : List Op) : ASCIIWriter :=
  ops.foldl applyOp s

/-- The concatenated setter-call trace of a whole operation sequence. -/
def allWrites (s : ASCIIWriter) : List Op → List SetCall
  | [] => []
  | op :: rest => opWriteList s op ++ allWrites (applyOp s op) rest

/-- A setter call at non-negative mapped coordinates (the ones that are
not discarded). -/
def nonnegCall (w : SetCall) : Bool := decide (0 ≤ w.1) && decide (0 ≤ w.2.1)

/-- How one setter call transforms the grid width. -/
def widthStep (acc : ℕ) (w : SetCall) : ℕ :=
  if nonnegCall w then max acc (w.1.toNat + 1) else acc

/-- How one setter call transforms the grid height. -/
def heightStep (acc : ℕ) (w : SetCall) : ℕ :=
  if nonnegCall w then max acc (w.2.1.toNat + 1) else acc

/-- The structural grid invariant: the row list matches `height`, every
row has length `width`, and a zero width forces the empty grid. -/
def GridInv (s : ASCIIWriter) : Prop :=
  s.grid.length = s.height ∧ (∀ row ∈ s.grid, row.length = s.width) ∧
    (s.width = 0 → s.height = 0)

/-- 8-connectivity of two consecutive rasterized cells. -/
def chainStep (p q : ℤ × ℤ) : Prop := |q.1 - p.1| ≤ 1 ∧ |q.2 - p.2| ≤ 1

/-- Position-wise description of the colored serializer: what is emitted
for one cell `c` whose predecessor (in the trimmed row) had color `prev`:
nothing extra when the color is unchanged; otherwise a reset if a color
was active, then a color-set escape if the new color is some; then the
glyph itself. -/
def cellToks (prev : Option TermColor) (c : Cell) : List Tok :=
  (if c.2 = prev then []
   else
     (if prev.isSome then [Tok.reset] else []) ++
     (match c.2 with
      | some col => [Tok.setColor col]
      | none => []))
  ++ [Tok.glyph c.1]

/-! ### Grid store lemmas -/

theorem resizePad_length {α : Type} (l : List α) (n : ℕ) (pad : α) :
    (resizePad l n pad).length = n := by
  simp [resizePad]
  omega

theorem set_with_color_neg (s : ASCIIWriter) (ix iy : ℤ) (ch : Char)
    (color : Option TermColor) (h : ix < 0 ∨ iy < 0) :
    set_with_color s ix iy ch color = s := by
  unfold set_with_color clamp_nonneg
  rw [if_pos h]

theorem ensure_size_eq_cases (s : ASCIIWriter) (x y : ℕ) :
    ensure_size s x y =
      if s.height ≤ y then
        if s.width ≤ x then
          { s with
            grid := (resizePad s.grid (y + 1)
                (List.replicate (max s.width 1) blankCell)).map
                  (fun r => resizePad r (x + 1) blankCell)
            width := x + 1, height := y + 1 }
        else
          { s with
            grid := resizePad s.grid (y + 1)
              (List.replicate (max s.width 1) blankCell)
            height := y + 1 }
      else
        if s.width ≤ x then
          { s with
            grid := s.grid.map (fun r => resizePad r (x + 1) blankCell)
            width := x + 1 }
        else s := by
  unfold ensure_size
  by_cases hy : s.height ≤ y
  · simp only [hy, if_true]
  · simp only [hy, if_false]

theorem ensure_size_width (s : ASCIIWriter) (x y : ℕ) :
    (ensure_size s x y).width = max s.width (x + 1) := by
  rw [ensure_size_eq_cases]
  by_cases hy : s.height ≤ y <;> by_cases hx : s.width ≤ x <;>
    simp only [hy, hx, if_true, if_false] <;> omega

theorem ensure_size_height (s : ASCIIWriter) (x y : ℕ) :
    (ensure_size s x y).height = max s.height (y + 1) := by
  rw [ensure_size_eq_cases]
  by_cases hy : s.height ≤ y <;> by_cases hx : s.width ≤ x <;>
    simp only [hy, hx, if_true, if_false] <;> omega

theorem set_with_color_width (s : ASCIIWriter) (ix iy : ℤ) (ch : Char)
    (color : Option TermColor) :
    (set_with_color s ix iy ch color).width =
      widthStep s.width (ix, iy, ch, color) := by
  by_cases h : ix < 0 ∨ iy < 0
  · rw [set_with_color_neg s ix iy ch color h]
    simp only [widthStep, nonnegCall]
    rcases h with h | h <;> simp [h, not_le.mpr h]
  · push_neg at h
    unfold set_with_color clamp_nonneg
    rw [if_neg (by push_neg; exact h)]
    simp only [widthStep, nonnegCall]
    rw [if_pos (by simp [h.1, h.2])]
    exact ensure_size_width s ix.toNat iy.toNat

theorem set_with_color_height (s : ASCIIWriter) (ix iy : ℤ) (ch : Char)
    (color : Option TermColor) :
    (set_with_color s ix iy ch color).height =
      heightStep s.height (ix, iy, ch, color) := by
  by_cases h : ix < 0 ∨ iy < 0
  · rw [set_with_color_neg s ix iy ch color h]
    simp only [heightStep, nonnegCall]
    rcases h with h | h <;> simp [h, not_le.mpr h]
  · push_neg at h
    unfold set_with_color clamp_nonneg
    rw [if_neg (by push_neg; exact h)]
    simp only [heightStep, nonnegCall]
    rw [if_pos (by simp [h.1, h.2])]
    exact ensure_size_height s ix.toNat iy.toNat

theorem gridInv_ensure_size (s : ASCIIWriter) (hs : GridInv s) (x y : ℕ) :
    GridInv (ensure_size s x y) := by
  obtain ⟨hlen, hrow, hzero⟩ := hs
  rw [ensure_size_eq_cases]
  by_cases hy : s.height ≤ y <;> by_cases hx : s.width ≤ x <;>
      simp only [hy, hx, if_true, if_false, ite_true, ite_false] <;>
      unfold GridInv
  · refine ⟨by simp [resizePad_length], ?_, by dsimp only; omega⟩
    intro row hr
    rw [List.mem_map] at hr
    obtain ⟨r0, _, hr0⟩ := hr
    rw [← hr0, resizePad_length]
  · refine ⟨by simp [resizePad_length], ?_, ?_⟩
    · intro row hr
      unfold resizePad at hr
      rcases List.mem_append.mp hr with hr | hr
      · exact hrow row (List.take_subset _ _ hr)
      · rw [List.eq_of_mem_replicate hr]
        simp only [List.length_replicate]
        omega
    · dsimp only
      intro h0
      omega
  · refine ⟨by simp [hlen], ?_, by dsimp only; omega⟩
    intro row hr
    rw [List.mem_map] at hr
    obtain ⟨r0, _, hr0⟩ := hr
    rw [← hr0, resizePad_length]
  · exact ⟨hlen, hrow, hzero⟩

theorem gridInv_set_with_color (s : ASCIIWriter) (hs : GridInv s)
    (ix iy : ℤ) (ch : Char) (color : Option TermColor) :
    GridInv (set_with_color s ix iy ch color) := by
  by_cases h : ix < 0 ∨ iy < 0
  · rw [set_with_color_neg s ix iy ch color h]; exact hs
  · unfold set_with_color clamp_nonneg
    rw [if_neg h]
    have hinv := gridInv_ensure_size s hs ix.toNat iy.toNat
    obtain ⟨hlen, hrow, hzero⟩ := hinv
    have hylt : iy.toNat < (ensure_size s ix.toNat iy.toNat).grid.length := by
      rw [hlen, ensure_size_height]
      omega
    refine ⟨by simpa using hlen, ?_, by simpa using hzero⟩
    intro row hr
    simp only at hr
    rcases List.mem_or_eq_of_mem_set hr with hr | hr
    · exact hrow row hr
    · rw [hr, List.length_set, List.getD_eq_getElem _ _ hylt]
      exact hrow _ (List.getElem_mem hylt)

/-! ### Lifting to write lists and operations -/

theorem applySet_width (s : ASCIIWriter) (w : SetCall) :
    (applySet s w).width = widthStep s.width w := by
  unfold applySet
  rw [set_with_color_width]

theorem applySet_height (s : ASCIIWriter) (w : SetCall) :
    (applySet s w).height = heightStep s.height w := by
  unfold applySet
  rw [set_with_color_height]

theorem gridInv_applySet (s : ASCIIWriter) (hs : GridInv s) (w : SetCall) :
    GridInv (applySet s w) :=
  gridInv_set_with_color s hs w.1 w.2.1 w.2.2.1 w.2.2.2

theorem applyWrites_width (ws : List SetCall) :
    ∀ s : ASCIIWriter, (applyWrites s ws).width = ws.foldl widthStep s.width := by
  induction ws with
  | nil => intro s; rfl
  | cons w rest ih =>
    intro s
    show (applyWrites (applySet s w) rest).width = _
    rw [ih, List.foldl_cons, applySet_width]

theorem applyWrites_height (ws : List SetCall) :
    ∀ s : ASCIIWriter, (applyWrites s ws).height = ws.foldl heightStep s.height := by
  induction ws with
  | nil => intro s; rfl
  | cons w rest ih =>
    intro s
    show (applyWrites (applySet s w) rest).height = _
    rw [ih, List.foldl_cons, applySet_height]

theorem gridInv_applyWrites (ws : List SetCall) :
    ∀ s : ASCIIWriter, GridInv s → GridInv (applyWrites s ws) := by
  induction ws with
  | nil => intro s hs; exact hs
  | cons w rest ih =>
    intro s hs
    exact ih (applySet s w) (gridInv_applySet s hs w)

theorem gridInv_scale_update (s : ASCIIWriter) (q : ℚ) (hs : GridInv s) :
    GridInv { s with scale := q } := hs

theorem gridInv_applyOp (s : ASCIIWriter) (hs : GridInv s) (op : Op) :
    GridInv (applyOp s op) := by
  cases op <;>
    first
      | exact gridInv_applyWrites _ _ hs
      | exact hs

theorem gridInv_applyOps (ops : List Op) :
    ∀ s : ASCIIWriter, GridInv s → GridInv (applyOps s ops) := by
  induction ops with
  | nil => intro s hs; exact hs
  | cons op rest ih =>
    intro s hs
    exact ih (applyOp s op) (gridInv_applyOp s hs op)

theorem applyOp_width (s : ASCIIWriter) (op : Op) :
    (applyOp s op).width = (opWriteList s op).foldl widthStep s.width := by
  cases op <;> simp [applyOp, opWriteList, applyWrites_width, ASCIIWriter.set_use_colors]

theorem applyOp_height (s : ASCIIWriter) (op : Op) :
    (applyOp s op).height = (opWriteList s op).foldl heightStep s.height := by
  cases op <;> simp [applyOp, opWriteList, applyWrites_height, ASCIIWriter.set_use_colors]

theorem applyOps_width (ops : List Op) :
    ∀ s : ASCIIWriter, (applyOps s ops).width = (allWrites s ops).foldl widthStep s.width := by
  induction ops with
  | nil => intro s; rfl
  | cons op rest ih =>
    intro s
    show (applyOps (applyOp s op) rest).width = _
    rw [ih, allWrites, List.foldl_append, applyOp_width]

theorem applyOps_height (ops : List Op) :
    ∀ s : ASCIIWriter, (applyOps s ops).height = (allWrites s ops).foldl heightStep s.height := by
  induction ops with
  | nil => intro s; rfl
  | cons op rest ih =>
    intro s
    show (applyOps (applyOp s op) rest).height = _
    rw [ih, allWrites, List.foldl_append, applyOp_height]

theorem applyOps_append (s : ASCIIWriter) (ops more : List Op) :
    applyOps s (ops ++ more) = applyOps (applyOps s ops) more :=
  List.foldl_append _ _ _ _

theorem foldl_max_init (l : List ℕ) :
    ∀ a : ℕ, l.foldl max a = max a (l.foldl max 0) := by
  induction l with
  | nil => intro a; simp
  | cons b t ih =>
    intro a
    simp only [List.foldl_cons]
    rw [ih (max a b), ih (max 0 b)]
    omega

theorem foldl_widthStep_le (ws : List SetCall) :
    ∀ a : ℕ, a ≤ ws.foldl widthStep a := by
  induction ws with
  | nil => intro a; exact le_refl a
  | cons w t ih =>
    intro a
    refine le_trans ?_ (ih (widthStep a w))
    unfold widthStep
    by_cases hw : nonnegCall w <;> simp [hw]

theorem foldl_heightStep_le (ws : List SetCall) :
    ∀ a : ℕ, a ≤ ws.foldl heightStep a := by
  induction ws with
  | nil => intro a; exact le_refl a
  | cons w t ih =>
    intro a
    refine le_trans ?_ (ih (heightStep a w))
    unfold heightStep
    by_cases hw : nonnegCall w <;> simp [hw]

theorem foldl_widthStep_eq (ws : List SetCall) :
    ∀ a : ℕ, ws.foldl widthStep a =
      max a (((ws.filter nonnegCall).map (fun w => w.1.toNat + 1)).foldl max 0) := by
  induction ws with
  | nil => intro a; simp
  | cons w t ih =>
    intro a
    by_cases hw : nonnegCall w
    · simp only [List.foldl_cons, List.filter_cons_of_pos hw, List.map_cons]
      rw [ih, foldl_max_init (List.map _ (List.filter _ t)) (max 0 (w.1.toNat + 1))]
      unfold widthStep
      rw [if_pos hw]
      omega
    · simp only [List.foldl_cons, List.filter_cons_of_neg hw]
      rw [ih]
      unfold widthStep
      rw [if_neg hw]

theorem foldl_heightStep_eq (ws : List SetCall) :
    ∀ a : ℕ, ws.foldl heightStep a =
      max a (((ws.filter nonnegCall).map (fun w => w.2.1.toNat + 1)).foldl max 0) := by
  induction ws with
  | nil => intro a; simp
  | cons w t ih =>
    intro a
    by_cases hw : nonnegCall w
    · simp only [List.foldl_cons, List.filter_cons_of_pos hw, List.map_cons]
      rw [ih, foldl_max_init (List.map _ (List.filter _ t)) (max 0 (w.2.1.toNat + 1))]
      unfold heightStep
      rw [if_pos hw]
      omega
    · simp only [List.foldl_cons, List.filter_cons_of_neg hw]
      rw [ih]
      unfold heightStep
      rw [if_neg hw]

theorem foldl_max_succ (l : List ℕ) :
    ∀ a : ℕ, (l.map (fun n => n + 1)).foldl max (a + 1) = l.foldl max a + 1 := by
  induction l with
  | nil => intro a; rfl
  | cons b t ih =>
    intro a
    simp only [List.map_cons, List.foldl_cons]
    have hmx : max (a + 1) (b + 1) = max a b + 1 := by omega
    rw [hmx, ih]

theorem foldl_max_succ_zero (l : List ℕ) (h : l ≠ []) :
    (l.map (fun n => n + 1)).foldl max 0 = l.foldl max 0 + 1 := by
  cases l with
  | nil => exact absurd rfl h
  | cons b t =>
    simp only [List.map_cons, List.foldl_cons]
    have h0 : max 0 (b + 1) = max 0 b + 1 := by omega
    rw [h0, foldl_max_succ]

/-! ### Claim C1: grid shape invariant -/

/-- C1.  After every sequence of operations on a fresh backend, every grid
row has length equal to the current width (and the row count equals the
height); width and height never decrease under further operations; and
whenever at least one setter call at non-negative mapped coordinates has
occurred, the width is one more than the largest mapped x ever written and
the height is one more than the largest mapped y ever written. -/
theorem grid_shape_invariant (tty uc : Bool) (ops : List Op) :
    ((applyOps (ASCIIWriter.new_with_color_setting tty uc) ops).grid.length =
        (applyOps (ASCIIWriter.new_with_color_setting tty uc) ops).height
      ∧ (∀ row ∈ (applyOps (ASCIIWriter.new_with_color_setting tty uc) ops).grid,
        row.length = (applyOps (ASCIIWriter.new_with_color_setting tty uc) ops).width))
    ∧ (∀ more : List Op,
        (applyOps (ASCIIWriter.new_with_color_setting tty uc) ops).width ≤
          (applyOps (ASCIIWriter.new_with_color_setting tty uc) (ops ++ more)).width
        ∧ (applyOps (ASCIIWriter.new_with_color_setting tty uc) ops).height ≤
          (applyOps (ASCIIWriter.new_with_color_setting tty uc) (ops ++ more)).height)
    ∧ ((allWrites (ASCIIWriter.new_with_color_setting tty uc) ops).filter nonnegCall ≠ [] →
        (applyOps (ASCIIWriter.new_with_color_setting tty uc) ops).width =
          (((allWrites (ASCIIWriter.new_with_color_setting tty uc) ops).filter nonnegCall).map
            (fun w => w.1.toNat)).foldl max 0 + 1
        ∧ (applyOps (ASCIIWriter.new_with_color_setting tty uc) ops).height =
          (((allWrites (ASCIIWriter.new_with_color_setting tty uc) ops).filter nonnegCall).map
            (fun w => w.2.1.toNat)).foldl max 0 + 1) := by
  have hinv : GridInv (applyOps (ASCIIWriter.new_with_color_setting tty uc) ops) :=
    gridInv_applyOps ops _ ⟨rfl, by simp [ASCIIWriter.new_with_color_setting], fun _ => rfl⟩
  refine ⟨⟨hinv.1, hinv.2.1⟩, ?_, ?_⟩
  · intro more
    rw [applyOps_append]
    constructor
    · rw [applyOps_width more (applyOps _ ops)]
      exact foldl_widthStep_le _ _
    · rw [applyOps_height more (applyOps _ ops)]
      exact foldl_heightStep_le _ _
  · intro hne
    rw [applyOps_width, applyOps_height, foldl_widthStep_eq, foldl_heightStep_eq]
    have hmap : ∀ g : SetCall → ℕ,
        (((allWrites (ASCIIWriter.new_with_color_setting tty uc) ops).filter nonnegCall).map
          (fun w => g w + 1)).foldl max 0 =
        (((allWrites (ASCIIWriter.new_with_color_setting tty uc) ops).filter nonnegCall).map
          (fun w => g w)).foldl max 0 + 1 := by
      intro g
      have hrw : (((allWrites (ASCIIWriter.new_with_color_setting tty uc) ops).filter
            nonnegCall).map (fun w => g w + 1)) =
          ((((allWrites (ASCIIWriter.new_with_color_setting tty uc) ops).filter
            nonnegCall).map (fun w => g w)).map (fun n => n + 1)) := by
        rw [List.map_map]
        rfl
      rw [hrw, foldl_max_succ_zero]
      simpa using hne
    rw [hmap (fun w => w.1.toNat), hmap (fun w => w.2.1.toNat)]
    have h0w : (ASCIIWriter.new_with_color_setting tty uc).width = 0 := rfl
    have h0h : (ASCIIWriter.new_with_color_setting tty uc).height = 0 := rfl
    constructor <;> omega

/-- C1 witness: a single text draw writing one glyph at mapped cell (0, 0)
produces width 1 = 0 + 1 and height 1 = 0 + 1. -/
theorem grid_shape_invariant_witness :
    (allWrites (ASCIIWriter.new_with_color_setting false false)
        [Op.draw_text (0, 0) ['a'] ⟨none, 1⟩]).filter nonnegCall ≠ [] ∧
    (applyOps (ASCIIWriter.new_with_color_setting false false)
        [Op.draw_text (0, 0) ['a'] ⟨none, 1⟩]).width =
      (((allWrites (ASCIIWriter.new_with_color_setting false false)
          [Op.draw_text (0, 0) ['a'] ⟨none, 1⟩]).filter nonnegCall).map
        (fun w => w.1.toNat)).foldl max 0 + 1 := by
  have hc : ('a' : Char) ≠ '\n' := by decide
  have hw : allWrites (ASCIIWriter.new_with_color_setting false false)
      [Op.draw_text (0, 0) ['a'] ⟨none, 1⟩] = [(0, 0, 'a', none)] := by
    norm_num [allWrites, opWriteList, text_at_center_writes, strLines, splitNl,
      to_ixy, roundHalfAway, List.enum, List.enumFrom, hc]
  refine ⟨by rw [hw]; decide, ?_⟩
  exact ((grid_shape_invariant false false
      [Op.draw_text (0, 0) ['a'] ⟨none, 1⟩]).2.2 (by rw [hw]; decide)).1

/-! ### Claim C2: negative writes are discarded -/

/-- C2.  A setter call with a negative mapped x or y coordinate leaves the
entire backend state (grid, width, height, everything) unchanged; since
every draw operation writes through this setter, no draw ever resizes the
grid from a negative coordinate. -/
theorem negative_write_is_noop (s : ASCIIWriter) (ix iy : ℤ) (ch : Char)
    (color : Option TermColor) (h : ix < 0 ∨ iy < 0) :
    set_with_color s ix iy ch color = s := by
  unfold set_with_color clamp_nonneg
  rw [if_pos h]

/-- C2 witness at the concrete coordinate (-1, 0). -/
theorem negative_write_is_noop_witness :
    set_with_color (ASCIIWriter.new_with_terminal_setting false) (-1) 0 'a' none =
      ASCIIWriter.new_with_terminal_setting false :=
  negative_write_is_noop _ _ _ _ _ (Or.inl (by norm_num))

/-! ### Claim C3: finalize is deterministic and idempotent -/

/-- C3.  The state-passing form of `finalize` returns the backend
unchanged, and a second call on the returned backend produces the
identical string; with both the colored and the plain serializer selected
exactly by the two flags. -/
theorem finalize_idempotent (s : ASCIIWriter) :
    (finalizeS s).2 = s
    ∧ (finalizeS ((finalizeS s).2)).1 = (finalizeS s).1
    ∧ finalizeS { s with is_terminal := true, use_colors := true } =
        (finalize_with_colors { s with is_terminal := true, use_colors := true },
         { s with is_terminal := true, use_colors := true })
    ∧ finalizeS { s with use_colors := false } =
        (finalize_plain { s with use_colors := false },
         { s with use_colors := false }) := by
  refine ⟨rfl, rfl, rfl, ?_⟩
  unfold finalizeS finalize
  simp

/-! ### Flag preservation lemmas -/

theorem ensure_size_flags (s : ASCIIWriter) (x y : ℕ) :
    (ensure_size s x y).is_terminal = s.is_terminal ∧
    (ensure_size s x y).use_colors = s.use_colors := by
  rw [ensure_size_eq_cases]
  by_cases hy : s.height ≤ y <;> by_cases hx : s.width ≤ x <;>
    simp [hy, hx]

theorem set_with_color_flags (s : ASCIIWriter) (ix iy : ℤ) (ch : Char)
    (color : Option TermColor) :
    (set_with_color s ix iy ch color).is_terminal = s.is_terminal ∧
    (set_with_color s ix iy ch color).use_colors = s.use_colors := by
  by_cases h : ix < 0 ∨ iy < 0
  · rw [set_with_color_neg s ix iy ch color h]
    exact ⟨rfl, rfl⟩
  · unfold set_with_color clamp_nonneg
    rw [if_neg h]
    exact ensure_size_flags s ix.toNat iy.toNat

theorem applyWrites_flags (ws : List SetCall) :
    ∀ s : ASCIIWriter, (applyWrites s ws).is_terminal = s.is_terminal ∧
      (applyWrites s ws).use_colors = s.use_colors := by
  induction ws with
  | nil => intro s; exact ⟨rfl, rfl⟩
  | cons w t ih =>
    intro s
    have h1 := ih (applySet s w)
    have h2 := set_with_color_flags s w.1 w.2.1 w.2.2.1 w.2.2.2
    exact ⟨h1.1.trans h2.1, h1.2.trans h2.2⟩

/-! ### Claim C5: colors forced off without terminal -/

/-- C5 counterexample: `new_with_color_setting(false, true)` stores the
colors-enabled flag unconditionally, so the backend reports terminal = off
yet `uses_colors()` = true (with no operation performed at all). -/
theorem colors_enabled_without_terminal_cex :
    (ASCIIWriter.new_with_color_setting false true).is_terminal = false ∧
    (ASCIIWriter.new_with_color_setting false true).uses_colors = true :=
  ⟨rfl, rfl⟩

/-- C5 amended.  The implication is_terminal = false → uses_colors = false
holds for backends built with `new` or `new_with_terminal_setting`, is
preserved by every operation, and is forced (unconditionally) by any
`set_use_colors` call; but `new_with_color_setting` can violate it at
construction (see the counterexample). -/
theorem colors_off_when_not_terminal :
    (∀ tty : Bool, (ASCIIWriter.new tty).is_terminal = false →
      (ASCIIWriter.new tty).uses_colors = false)
    ∧ (∀ tty : Bool, (ASCIIWriter.new_with_terminal_setting tty).is_terminal = false →
      (ASCIIWriter.new_with_terminal_setting tty).uses_colors = false)
    ∧ (∀ (s : ASCIIWriter) (op : Op),
      (s.is_terminal = false → s.uses_colors = false) →
      ((applyOp s op).is_terminal = false → (applyOp s op).uses_colors = false))
    ∧ (∀ (s : ASCIIWriter) (uc : Bool),
      (s.set_use_colors uc).is_terminal = false →
        (s.set_use_colors uc).uses_colors = false) := by
  refine ⟨?_, ?_, ?_, ?_⟩
  · intro tty h
    exact h
  · intro tty h
    exact h
  · intro s op hinv
    cases op with
    | create_clip xy size r => exact hinv
    | set_use_colors uc =>
      intro h
      have ht : s.is_terminal = false := h
      simp [applyOp, ASCIIWriter.set_use_colors, ASCIIWriter.uses_colors, ht]
    | draw_rect xy size look clip =>
      intro h
      have hf := applyWrites_flags (opWriteList s (Op.draw_rect xy size look clip))
        { s with scale := (look.font_size : ℚ) }
      rw [applyOp] at h ⊢
      unfold ASCIIWriter.uses_colors
      rw [hf.2]
      exact hinv (by rw [hf.1] at h; exact h)
    | draw_line a b look =>
      intro h
      have hf := applyWrites_flags (opWriteList s (Op.draw_line a b look))
        { s with scale := (look.font_size : ℚ) }
      rw [applyOp] at h ⊢
      unfold ASCIIWriter.uses_colors
      rw [hf.2]
      exact hinv (by rw [hf.1] at h; exact h)
    | draw_circle xy size look =>
      intro h
      have hf := applyWrites_flags (opWriteList s (Op.draw_circle xy size look))
        { s with scale := (look.font_size : ℚ) }
      rw [applyOp] at h ⊢
      unfold ASCIIWriter.uses_colors
      rw [hf.2]
      exact hinv (by rw [hf.1] at h; exact h)
    | draw_text xy text look =>
      intro h
      have hf := applyWrites_flags (opWriteList s (Op.draw_text xy text look))
        { s with scale := (look.font_size : ℚ) }
      rw [applyOp] at h ⊢
      unfold ASCIIWriter.uses_colors
      rw [hf.2]
      exact hinv (by rw [hf.1] at h; exact h)
    | draw_arrow path dashed head look label =>
      intro h
      have hf := applyWrites_flags
        (opWriteList s (Op.draw_arrow path dashed head look label))
        { s with scale := (look.font_size : ℚ) }
      rw [applyOp] at h ⊢
      unfold ASCIIWriter.uses_colors
      rw [hf.2]
      exact hinv (by rw [hf.1] at h; exact h)
  · intro s uc h
    have ht : s.is_terminal = false := h
    simp [ASCIIWriter.set_use_colors, ASCIIWriter.uses_colors, ht]

/-- C5 witness: the amended invariant, discharged on the concrete
non-terminal backend, including across a `set_use_colors true` call. -/
theorem colors_off_when_not_terminal_witness :
    (ASCIIWriter.new_with_terminal_setting false).uses_colors = false ∧
    (applyOp (ASCIIWriter.new_with_terminal_setting false)
      (Op.set_use_colors true)).uses_colors = false :=
  ⟨colors_off_when_not_terminal.2.1 false rfl,
   colors_off_when_not_terminal.2.2.1 (ASCIIWriter.new_with_terminal_setting false)
     (Op.set_use_colors true)
     (fun _ => colors_off_when_not_terminal.2.1 false rfl) rfl⟩

/-! ### Claim C9: color resolver bucketing -/

theorem style_color_some (r g b : ℕ) :
    style_color_to_term_color (some (r, g, b)) =
      (if 128 < r ∧ g < 128 ∧ b < 128 then some TermColor.red
       else if r < 128 ∧ 128 < g ∧ b < 128 then some TermColor.green
       else if r < 128 ∧ g < 128 ∧ 128 < b then some TermColor.blue
       else if 128 < r ∧ 128 < g ∧ b < 128 then some TermColor.yellow
       else if 128 < r ∧ g < 128 ∧ 128 < b then some TermColor.magenta
       else if r < 128 ∧ 128 < g ∧ 128 < b then some TermColor.cyan
       else if 200 < r ∧ 200 < g ∧ 200 < b then some TermColor.white
       else if r < 100 ∧ g < 100 ∧ b < 100 then some TermColor.black
       else some TermColor.white) := rfl

/-- C9.  The color resolver maps an absent fill color to no color; a
present color with exactly one channel above 128 and the other two below
128 to red, green or blue; two channels above 128 with the third below to
yellow, magenta or cyan; all three above 200 to white; all three below
100 to black; and every remaining combination to white. -/
theorem color_bucketing :
    style_color_to_term_color none = none
    ∧ (∀ r g b : ℕ, 128 < r → g < 128 → b < 128 →
        style_color_to_term_color (some (r, g, b)) = some TermColor.red)
    ∧ (∀ r g b : ℕ, r < 128 → 128 < g → b < 128 →
        style_color_to_term_color (some (r, g, b)) = some TermColor.green)
    ∧ (∀ r g b : ℕ, r < 128 → g < 128 → 128 < b →
        style_color_to_term_color (some (r, g, b)) = some TermColor.blue)
    ∧ (∀ r g b : ℕ, 128 < r → 128 < g → b < 128 →
        style_color_to_term_color (some (r, g, b)) = some TermColor.yellow)
    ∧ (∀ r g b : ℕ, 128 < r → g < 128 → 128 < b →
        style_color_to_term_color (some (r, g, b)) = some TermColor.magenta)
    ∧ (∀ r g b : ℕ, r < 128 → 128 < g → 128 < b →
        style_color_to_term_color (some (r, g, b)) = some TermColor.cyan)
    ∧ (∀ r g b : ℕ, 200 < r → 200 < g → 200 < b →
        style_color_to_term_color (some (r, g, b)) = some TermColor.white)
    ∧ (∀ r g b : ℕ, r < 100 → g < 100 → b < 100 →
        style_color_to_term_color (some (r, g, b)) = some TermColor.black)
    ∧ (∀ r g b : ℕ,
        ¬(128 < r ∧ g < 128 ∧ b < 128) → ¬(r < 128 ∧ 128 < g ∧ b < 128) →
        ¬(r < 128 ∧ g < 128 ∧ 128 < b) → ¬(128 < r ∧ 128 < g ∧ b < 128) →
        ¬(128 < r ∧ g < 128 ∧ 128 < b) → ¬(r < 128 ∧ 128 < g ∧ 128 < b) →
        ¬(200 < r ∧ 200 < g ∧ 200 < b) → ¬(r < 100 ∧ g < 100 ∧ b < 100) →
        style_color_to_term_color (some (r, g, b)) = some TermColor.white) := by
  refine ⟨rfl, ?_, ?_, ?_, ?_, ?_, ?_, ?_, ?_, ?_⟩
  · intro r g b h1 h2 h3
    rw [style_color_some, if_pos ⟨h1, h2, h3⟩]
  · intro r g b h1 h2 h3
    rw [style_color_some, if_neg (by omega), if_pos ⟨h1, h2, h3⟩]
  · intro r g b h1 h2 h3
    rw [style_color_some, if_neg (by omega), if_neg (by omega),
      if_pos ⟨h1, h2, h3⟩]
  · intro r g b h1 h2 h3
    rw [style_color_some, if_neg (by omega), if_neg (by omega),
      if_neg (by omega), if_pos ⟨h1, h2, h3⟩]
  · intro r g b h1 h2 h3
    rw [style_color_some, if_neg (by omega), if_neg (by omega),
      if_neg (by omega), if_neg (by omega), if_pos ⟨h1, h2, h3⟩]
  · intro r g b h1 h2 h3
    rw [style_color_some, if_neg (by omega), if_neg (by omega),
      if_neg (by omega), if_neg (by omega), if_neg (by omega),
      if_pos ⟨h1, h2, h3⟩]
  · intro r g b h1 h2 h3
    rw [style_color_some, if_neg (by omega), if_neg (by omega),
      if_neg (by omega), if_neg (by omega), if_neg (by omega),
      if_neg (by omega), if_pos ⟨h1, h2, h3⟩]
  · intro r g b h1 h2 h3
    rw [style_color_some, if_neg (by omega), if_neg (by omega),
      if_neg (by omega), if_neg (by omega), if_neg (by omega),
      if_neg (by omega), if_neg (by omega), if_pos ⟨h1, h2, h3⟩]
  · intro r g b hn1 hn2 hn3 hn4 hn5 hn6 hn7 hn8
    rw [style_color_some, if_neg hn1, if_neg hn2, if_neg hn3, if_neg hn4,
      if_neg hn5, if_neg hn6, if_neg hn7, if_neg hn8]

/-- C9 witness: one representative per bucket, hypotheses checked
concretely. -/
theorem color_bucketing_witness :
    style_color_to_term_color (some (200, 50, 50)) = some TermColor.red
    ∧ style_color_to_term_color (some (50, 200, 50)) = some TermColor.green
    ∧ style_color_to_term_color (some (50, 50, 200)) = some TermColor.blue
    ∧ style_color_to_term_color (some (200, 200, 50)) = some TermColor.yellow
    ∧ style_color_to_term_color (some (200, 50, 200)) = some TermColor.magenta
    ∧ style_color_to_term_color (some (50, 200, 200)) = some TermColor.cyan
    ∧ style_color_to_term_color (some (220, 220, 220)) = some TermColor.white
    ∧ style_color_to_term_color (some (50, 50, 50)) = some TermColor.black
    ∧ style_color_to_term_color (some (150, 150, 150)) = some TermColor.white :=
  ⟨color_bucketing.2.1 200 50 50 (by norm_num) (by norm_num) (by norm_num),
   color_bucketing.2.2.1 50 200 50 (by norm_num) (by norm_num) (by norm_num),
   color_bucketing.2.2.2.1 50 50 200 (by norm_num) (by norm_num) (by norm_num),
   color_bucketing.2.2.2.2.1 200 200 50 (by norm_num) (by norm_num) (by norm_num),
   color_bucketing.2.2.2.2.2.1 200 50 200 (by norm_num) (by norm_num) (by norm_num),
   color_bucketing.2.2.2.2.2.2.1 50 200 200 (by norm_num) (by norm_num) (by norm_num),
   color_bucketing.2.2.2.2.2.2.2.1 220 220 220 (by norm_num) (by norm_num) (by norm_num),
   color_bucketing.2.2.2.2.2.2.2.2.1 50 50 50 (by norm_num) (by norm_num) (by norm_num),
   color_bucketing.2.2.2.2.2.2.2.2.2 150 150 150 (by omega) (by omega) (by omega)
     (by omega) (by omega) (by omega) (by omega) (by omega)⟩

/-! ### Claim C8: degenerate rectangles draw nothing -/

theorem rect_writes_empty (scale : ℚ) (tl size : Point) (fill : Char)
    (color : Option TermColor)
    (h : max (roundHalfAway (size.1 / scale)) 0 = 0 ∨
         max (roundHalfAway (size.2 / scale)) 0 = 0) :
    rect_fill_writes scale tl size fill color = [] ∧
    rect_outline_writes scale tl size = [] := by
  unfold rect_fill_writes rect_outline_writes
  rcases h with h | h <;> rw [h] <;> constructor <;> simp

/-- C8.  A `draw_rect` call whose rounded scaled width or height is zero
performs no setter call at all (no fill, no outline) and leaves the whole
state unchanged apart from the call-scoped scale field, whatever the
terminal and color flags are. -/
theorem degenerate_rect_draws_nothing (s : ASCIIWriter) (xy size : Point)
    (look : StyleAttr) (clip : Option ℕ) (_hfs : 0 < look.font_size)
    (hdeg : max (roundHalfAway (size.1 / (look.font_size : ℚ))) 0 = 0 ∨
            max (roundHalfAway (size.2 / (look.font_size : ℚ))) 0 = 0) :
    opWriteList s (Op.draw_rect xy size look clip) = [] ∧
    applyOp s (Op.draw_rect xy size look clip) =
      { s with scale := (look.font_size : ℚ) } := by
  have hempty : ∀ color : Option TermColor,
      rect_fill_writes (look.font_size : ℚ) xy size '█' color = [] :=
    fun color => (rect_writes_empty _ xy size '█' color hdeg).1
  have houtline : rect_outline_writes (look.font_size : ℚ) xy size = [] :=
    (rect_writes_empty _ xy size '█' none hdeg).2
  have hops : opWriteList s (Op.draw_rect xy size look clip) = [] := by
    simp only [opWriteList]
    rw [houtline, hempty]
    simp
  refine ⟨hops, ?_⟩
  show applyWrites { s with scale := (look.font_size : ℚ) }
      (opWriteList s (Op.draw_rect xy size look clip)) = _
  rw [hops]
  rfl

/-- C8 witness: a rectangle of size (0, 30) at scale 6 rounds to width 0
and is skipped entirely. -/
theorem degenerate_rect_draws_nothing_witness :
    opWriteList (ASCIIWriter.new_with_terminal_setting true)
      (Op.draw_rect (0, 0) (0, 30) ⟨some (200, 50, 50), 6⟩ none) = [] :=
  (degenerate_rect_draws_nothing (ASCIIWriter.new_with_terminal_setting true)
    (0, 0) (0, 30) ⟨some (200, 50, 50), 6⟩ none (by norm_num)
    (Or.inl (by norm_num [roundHalfAway]))).1

/-! ### Claim C10: degenerate arrow paths -/

/-- C10.  An arrow call with an empty path changes nothing but the
call-scoped scale (no segment, no head, no label); an arrow call with a
single (anchor, control) pair draws no segment and no head glyph even
when a head is requested, and behaves exactly like drawing the label text
centered at the single anchor. -/
theorem arrow_degenerate_paths :
    (∀ (s : ASCIIWriter) (dashed : Bool) (head : Bool × Bool)
        (look : StyleAttr) (label : List Char),
      applyOp s (Op.draw_arrow [] dashed head look label) =
        { s with scale := (look.font_size : ℚ) })
    ∧ (∀ (s : ASCIIWriter) (a c : Point) (dashed : Bool) (hb he : Bool)
        (look : StyleAttr) (label : List Char),
      applyOp s (Op.draw_arrow [(a, c)] dashed (hb, he) look label) =
        applyOp s (Op.draw_text a label look)) := by
  constructor
  · intro s dashed head look label
    have hw : opWriteList s (Op.draw_arrow [] dashed head look label) = [] := by
      simp [opWriteList, draw_arrow_writes]
    show applyWrites { s with scale := (look.font_size : ℚ) }
        (opWriteList s (Op.draw_arrow [] dashed head look label)) = _
    rw [hw]
    rfl
  · intro s a c dashed hb he look label
    have harrow : opWriteList s (Op.draw_arrow [(a, c)] dashed (hb, he) look label) =
        opWriteList s (Op.draw_text a label look) := by
      show draw_arrow_writes (look.font_size : ℚ) [(a, c)] dashed (hb, he) label =
        text_at_center_writes (look.font_size : ℚ) a label
      by_cases hl : label = []
      · subst hl
        simp [draw_arrow_writes, draw_polyline_writes, text_at_center_writes,
          strLines, splitNl]
      · simp [draw_arrow_writes, draw_polyline_writes, hl]
    show applyWrites { s with scale := (look.font_size : ℚ) }
        (opWriteList s (Op.draw_arrow [(a, c)] dashed (hb, he) look label)) =
      applyWrites { s with scale := (look.font_size : ℚ) }
        (opWriteList s (Op.draw_text a label look))
    rw [harrow]

/-! ### Claim C4: colored row serialization -/

theorem rowToksFrom_eq (cells : List Cell) :
    ∀ cur : Option TermColor,
      rowToksFrom cur cells =
        ((cells.zip (cur :: cells.map Prod.snd)).map
          (fun pc => cellToks pc.2 pc.1)).flatten
        ++ (if ((cells.map Prod.snd).getLastD cur).isSome then [Tok.reset] else []) := by
  induction cells with
  | nil => intro cur; simp [rowToksFrom]
  | cons c rest ih =>
    intro cur
    simp only [rowToksFrom, List.map_cons, List.zip_cons_cons, List.flatten_cons,
      List.getLastD_cons, ih c.2, cellToks]
    simp [List.append_assoc]

/-- C4 counterexample: the trimmed row `█(red), +(no color)` has a color
active on it, yet the emitted token sequence ends with the plain glyph,
not with a trailing reset: the only reset is the mid-line one at the
color-to-none transition. -/
theorem colored_row_trailing_reset_cex :
    rowToksFrom none (trimRow [('█', some TermColor.red), ('+', none)]) =
      [Tok.setColor TermColor.red, Tok.glyph '█', Tok.reset, Tok.glyph '+']
    ∧ (rowToksFrom none (trimRow [('█', some TermColor.red), ('+', none)])).getLast? ≠
        some Tok.reset
    ∧ ('█', some TermColor.red) ∈ [('█', some TermColor.red), ('+', none)] := by
  refine ⟨?_, ?_, ?_⟩ <;> decide

/-- C4 amended.  Within each trimmed row the colored serializer emits,
at each cell, exactly `cellToks` of the preceding color and the cell: a
color-set escape iff the color differs from the preceding one and is
some (preceded by a reset iff a color was active), nothing but the glyph
otherwise; and a trailing reset iff the last cell of the trimmed row
still carries a color (not merely when some color was active earlier in
the line). -/
theorem colored_row_tokens_characterization (row : List Cell) :
    rowToksFrom none (trimRow row) =
      (((trimRow row).zip (none :: (trimRow row).map Prod.snd)).map
        (fun pc => cellToks pc.2 pc.1)).flatten
      ++ (if (((trimRow row).map Prod.snd).getLastD none).isSome then [Tok.reset]
          else []) :=
  rowToksFrom_eq (trimRow row) none

/-! ### Claim C7: line glyph selection by angle -/

theorem get_line_char_eq (p0 p1 : Point) :
    get_line_char p0 p1 =
      (if |p1.1 - p0.1| < 1/1000 then '|'
       else if |p1.2 - p0.2| < 1/1000 then '-'
       else if (|p1.2 - p0.2| + |p1.1 - p0.1|)^2 < 2*(p1.1 - p0.1)^2 then '-'
       else if (|p1.2 - p0.2| - |p1.1 - p0.1|)^2 < 2*(p1.1 - p0.1)^2 then
         (if (0 < p1.1 - p0.1 ∧ 0 < p1.2 - p0.2) ∨
             (p1.1 - p0.1 < 0 ∧ p1.2 - p0.2 < 0) then '\\' else '/')
       else '|') := rfl

/-- The rational test for an angle magnitude below 22.5 degrees is exact:
for a nonzero run, `(|dy| + |dx|)² < 2 dx²` says precisely that the slope
magnitude is below `tan 22.5° = √2 - 1`. -/
theorem tan225_iff (dx dy : ℚ) (h : dx ≠ 0) :
    (|dy| + |dx|)^2 < 2*dx^2 ↔
      |(dy : ℝ)| < (Real.sqrt 2 - 1) * |(dx : ℝ)| := by
  have hA : (0:ℝ) < |(dx:ℝ)| := abs_pos.mpr (by exact_mod_cast h)
  have hB : (0:ℝ) ≤ |(dy:ℝ)| := abs_nonneg _
  have hs : Real.sqrt 2 ^ 2 = 2 := Real.sq_sqrt (by norm_num)
  have hs0 : (0:ℝ) ≤ Real.sqrt 2 := Real.sqrt_nonneg 2
  have hcast : ((|dy| + |dx|)^2 < 2*dx^2) ↔
      ((|(dy:ℝ)| + |(dx:ℝ)|)^2 < 2*(dx:ℝ)^2) := by
    rw [show ((|(dy:ℝ)| + |(dx:ℝ)|)^2 : ℝ) = (((|dy| + |dx|)^2 : ℚ) : ℝ) by
          push_cast; ring,
        show ((2*(dx:ℝ)^2 : ℝ)) = ((2*dx^2 : ℚ) : ℝ) by push_cast; ring]
    exact_mod_cast Iff.rfl
  rw [hcast]
  have hsq_abs : Real.sqrt 2 * |(dx:ℝ)| = Real.sqrt (2 * (dx:ℝ)^2) := by
    rw [Real.sqrt_mul (by norm_num : (0:ℝ) ≤ 2), Real.sqrt_sq_eq_abs]
  constructor
  · intro hlt
    by_contra hnot
    push_neg at hnot
    have h1 : 0 ≤ |(dy:ℝ)| + |(dx:ℝ)| - Real.sqrt 2 * |(dx:ℝ)| := by nlinarith
    have h2 : 0 ≤ |(dy:ℝ)| + |(dx:ℝ)| + Real.sqrt 2 * |(dx:ℝ)| := by positivity
    have h3 := mul_nonneg h1 h2
    nlinarith [sq_abs (dx:ℝ)]
  · intro hlt
    have h1 : |(dy:ℝ)| + |(dx:ℝ)| < Real.sqrt 2 * |(dx:ℝ)| := by nlinarith
    have h2 : (0:ℝ) ≤ |(dy:ℝ)| + |(dx:ℝ)| := by positivity
    nlinarith [sq_abs (dx:ℝ)]

/-- The rational test for an angle magnitude below 67.5 degrees is exact:
for a nonzero run, `(|dy| - |dx|)² < 2 dx²` says precisely that the slope
magnitude is below `tan 67.5° = √2 + 1`. -/
theorem tan675_iff (dx dy : ℚ) (h : dx ≠ 0) :
    (|dy| - |dx|)^2 < 2*dx^2 ↔
      |(dy : ℝ)| < (Real.sqrt 2 + 1) * |(dx : ℝ)| := by
  have hA : (0:ℝ) < |(dx:ℝ)| := abs_pos.mpr (by exact_mod_cast h)
  have hB : (0:ℝ) ≤ |(dy:ℝ)| := abs_nonneg _
  have hs : Real.sqrt 2 ^ 2 = 2 := Real.sq_sqrt (by norm_num)
  have hs0 : (0:ℝ) ≤ Real.sqrt 2 := Real.sqrt_nonneg 2
  have hs1 : (1:ℝ) ≤ Real.sqrt 2 := by nlinarith
  have hcast : ((|dy| - |dx|)^2 < 2*dx^2) ↔
      ((|(dy:ℝ)| - |(dx:ℝ)|)^2 < 2*(dx:ℝ)^2) := by
    rw [show ((|(dy:ℝ)| - |(dx:ℝ)|)^2 : ℝ) = (((|dy| - |dx|)^2 : ℚ) : ℝ) by
          push_cast; ring,
        show ((2*(dx:ℝ)^2 : ℝ)) = ((2*dx^2 : ℚ) : ℝ) by push_cast; ring]
    exact_mod_cast Iff.rfl
  rw [hcast]
  constructor
  · intro hlt
    by_contra hnot
    push_neg at hnot
    have h1 : 0 ≤ |(dy:ℝ)| - |(dx:ℝ)| - Real.sqrt 2 * |(dx:ℝ)| := by nlinarith
    have h2 : 0 ≤ |(dy:ℝ)| - |(dx:ℝ)| + Real.sqrt 2 * |(dx:ℝ)| := by nlinarith
    have h3 := mul_nonneg h1 h2
    nlinarith [sq_abs (dx:ℝ)]
  · intro hlt
    rcases le_or_lt 0 (|(dy:ℝ)| - |(dx:ℝ)|) with hc | hc
    · have h1 : |(dy:ℝ)| - |(dx:ℝ)| < Real.sqrt 2 * |(dx:ℝ)| := by nlinarith
      nlinarith [sq_abs (dx:ℝ)]
    · have h1 : -(|(dx:ℝ)|) ≤ |(dy:ℝ)| - |(dx:ℝ)| := by nlinarith
      nlinarith [sq_abs (dx:ℝ)]

/-- C7 counterexample: for the segment from (0, 0) to (1/2000, 1/10000)
the run is nonzero and the slope 1/5 is well below tan 22.5° = √2 - 1, so
the claimed angle rule selects the horizontal glyph; but the source hits
the |dx| < 0.001 epsilon guard first and returns the vertical glyph. -/
theorem line_glyph_angle_cex :
    get_line_char (0, 0) (1/2000, 1/10000) = '|'
    ∧ ((1:ℚ)/2000) ≠ 0
    ∧ |(((1:ℚ)/10000 : ℚ) : ℝ)| < (Real.sqrt 2 - 1) * |(((1:ℚ)/2000 : ℚ) : ℝ)| := by
  have h65 : (6/5 : ℝ) < Real.sqrt 2 :=
    (Real.lt_sqrt (by norm_num : (0:ℝ) ≤ 6/5)).mpr (by norm_num)
  refine ⟨?_, by norm_num, ?_⟩
  · rw [get_line_char_eq, if_pos (by norm_num [abs_of_pos])]
  · push_cast
    rw [abs_of_pos (show (0:ℝ) < 1/10000 by norm_num),
      abs_of_pos (show (0:ℝ) < 1/2000 by norm_num)]
    nlinarith [h65]

/-- C7 amended.  The glyph is chosen per segment as the claim says on the
angle range, except that two epsilon guards run first: a run below 0.001
in magnitude forces the vertical glyph and (after that) a rise below
0.001 forces the horizontal glyph.  Away from the guards: slope magnitude
below tan 22.5° gives the horizontal glyph; between tan 22.5° (inclusive)
and tan 67.5° (exclusive) gives a diagonal, backslash iff dx and dy have
the same sign; at and above tan 67.5° gives the vertical glyph. -/
theorem line_glyph_from_angle (p0 p1 : Point) :
    (|p1.1 - p0.1| < 1/1000 → get_line_char p0 p1 = '|')
    ∧ (1/1000 ≤ |p1.1 - p0.1| → |p1.2 - p0.2| < 1/1000 →
        get_line_char p0 p1 = '-')
    ∧ (1/1000 ≤ |p1.1 - p0.1| → 1/1000 ≤ |p1.2 - p0.2| →
        ((|((p1.2 - p0.2 : ℚ) : ℝ)| <
            (Real.sqrt 2 - 1) * |((p1.1 - p0.1 : ℚ) : ℝ)| →
          get_line_char p0 p1 = '-')
        ∧ ((Real.sqrt 2 - 1) * |((p1.1 - p0.1 : ℚ) : ℝ)| ≤
            |((p1.2 - p0.2 : ℚ) : ℝ)| →
           |((p1.2 - p0.2 : ℚ) : ℝ)| <
            (Real.sqrt 2 + 1) * |((p1.1 - p0.1 : ℚ) : ℝ)| →
          get_line_char p0 p1 =
            (if (0 < p1.1 - p0.1 ∧ 0 < p1.2 - p0.2) ∨
                (p1.1 - p0.1 < 0 ∧ p1.2 - p0.2 < 0) then '\\' else '/'))
        ∧ ((Real.sqrt 2 + 1) * |((p1.1 - p0.1 : ℚ) : ℝ)| ≤
            |((p1.2 - p0.2 : ℚ) : ℝ)| →
          get_line_char p0 p1 = '|'))) := by
  refine ⟨?_, ?_, ?_⟩
  · intro h1
    rw [get_line_char_eq, if_pos h1]
  · intro h1 h2
    rw [get_line_char_eq, if_neg (not_lt.mpr h1), if_pos h2]
  · intro h1 h2
    have hdx : (p1.1 - p0.1) ≠ 0 := by
      intro h0
      rw [h0] at h1
      norm_num at h1
    have hAR : (0:ℝ) < |((p1.1 - p0.1 : ℚ) : ℝ)| :=
      abs_pos.mpr (by exact_mod_cast hdx)
    have hs0 : (0:ℝ) ≤ Real.sqrt 2 := Real.sqrt_nonneg 2
    have hs : Real.sqrt 2 ^ 2 = 2 := Real.sq_sqrt (by norm_num)
    refine ⟨?_, ?_, ?_⟩
    · intro hang
      rw [get_line_char_eq, if_neg (not_lt.mpr h1), if_neg (not_lt.mpr h2),
        if_pos ((tan225_iff _ _ hdx).mpr hang)]
    · intro hang1 hang2
      rw [get_line_char_eq, if_neg (not_lt.mpr h1), if_neg (not_lt.mpr h2),
        if_neg (fun hc => absurd ((tan225_iff _ _ hdx).mp hc) (not_lt.mpr hang1)),
        if_pos ((tan675_iff _ _ hdx).mpr hang2)]
    · intro hang
      have hmono : (Real.sqrt 2 - 1) * |((p1.1 - p0.1 : ℚ) : ℝ)| ≤
          (Real.sqrt 2 + 1) * |((p1.1 - p0.1 : ℚ) : ℝ)| := by nlinarith
      rw [get_line_char_eq, if_neg (not_lt.mpr h1), if_neg (not_lt.mpr h2),
        if_neg (fun hc =>
          absurd ((tan225_iff _ _ hdx).mp hc) (not_lt.mpr (le_trans hmono hang))),
        if_neg (fun hc =>
          absurd ((tan675_iff _ _ hdx).mp hc) (not_lt.mpr hang))]

/-- C7 witness: the amended rule instantiated at three concrete segments,
one per angle band (slope 0 within the guard, slope 1 diagonal, vertical
run), discharging every hypothesis numerically. -/
theorem line_glyph_from_angle_witness :
    get_line_char (0, 0) (2, 0) = '-'
    ∧ get_line_char (0, 0) (2, 2) = '\\'
    ∧ get_line_char (0, 0) (0, 2) = '|' := by
  have hs0 : (0:ℝ) ≤ Real.sqrt 2 := Real.sqrt_nonneg 2
  have hs : Real.sqrt 2 ^ 2 = 2 := Real.sq_sqrt (by norm_num)
  have hs1 : (1:ℝ) ≤ Real.sqrt 2 := by nlinarith
  have hs2 : Real.sqrt 2 ≤ (3/2 : ℝ) := by nlinarith
  refine ⟨?_, ?_, ?_⟩
  · exact (line_glyph_from_angle (0, 0) (2, 0)).2.1 (by norm_num) (by norm_num)
  · have hd := ((line_glyph_from_angle (0, 0) (2, 2)).2.2 (by norm_num)
      (by norm_num)).2.1
      (by push_cast
          rw [abs_of_pos (show (0:ℝ) < 2 - 0 by norm_num)]
          nlinarith)
      (by push_cast
          rw [abs_of_pos (show (0:ℝ) < 2 - 0 by norm_num)]
          nlinarith)
    rw [hd, if_pos (by norm_num)]
  · exact (line_glyph_from_angle (0, 0) (0, 2)).1 (by norm_num)

/-! ### Claim C6: Bresenham line coverage -/

theorem bres_master (n : ℕ) :
    ∀ (x1 y1 sx sy a b k j e xc yc : ℤ),
      (sx = 1 ∨ sx = -1) → (sy = 1 ∨ sy = -1) →
      0 < a → 0 ≤ b → b ≤ a → 0 ≤ k → k ≤ a → 0 ≤ j → j ≤ b →
      a - k = (n : ℤ) →
      xc = x1 - sx * (a - k) → yc = y1 - sy * (b - j) →
      e = a - b - k * b + a * j →
      2 * (a * j) ≤ 2 * (k * b) + a →
      2 * (k * b) + a < 2 * (a * j) + 2 * a →
      ∃ L : List (ℤ × ℤ),
        (∀ g : ℕ, n < g → bresAux x1 y1 sx sy a (-b) xc yc e g = L) ∧
        L.length = n + 1 ∧ L.head? = some (xc, yc) ∧
        L.getLast? = some (x1, y1) ∧
        List.Chain' (fun p q : ℤ × ℤ =>
          q.1 = p.1 + sx ∧ (q.2 = p.2 ∨ q.2 = p.2 + sy)) L := by
  induction n with
  | zero =>
    intro x1 y1 sx sy a b k j e xc yc hsx hsy ha hb hba hk0 hka hj0 hjb hn
      hxc hyc he hdiv1 hdiv2
    have hka' : k = a := by omega
    rw [hka'] at hdiv1 hdiv2
    have hjb' : j = b := by
      by_contra hne
      have h1b : (1:ℤ) ≤ b - j := by omega
      have h2a : 2*a*1 ≤ 2*a*(b-j) := mul_le_mul_of_nonneg_left h1b (by omega)
      have hexp : 2*a*(b-j) = 2*(a*b) - 2*(a*j) := by ring
      linarith
    have hxc' : xc = x1 := by rw [hxc, hka', sub_self, mul_zero, sub_zero]
    have hyc' : yc = y1 := by rw [hyc, hjb', sub_self, mul_zero, sub_zero]
    refine ⟨[(xc, yc)], ?_, rfl, rfl, by simp [hxc', hyc'], by simp⟩
    intro g hg
    obtain ⟨g', rfl⟩ : ∃ g', g = g' + 1 := ⟨g - 1, by omega⟩
    simp only [bresAux]
    rw [if_pos ⟨hxc', hyc'⟩]
  | succ n ih =>
    intro x1 y1 sx sy a b k j e xc yc hsx hsy ha hb hba hk0 hka hj0 hjb hn
      hxc hyc he hdiv1 hdiv2
    have hkla : k < a := by omega
    have hxne : ¬(xc = x1 ∧ yc = y1) := by
      intro hc
      have hc1 := hc.1
      rw [hxc] at hc1
      rcases hsx with h1 | h1 <;> rw [h1] at hc1 <;> omega
    have hxfire : -b ≤ 2 * e := by nlinarith
    by_cases hyfire : 2 * e ≤ a
    · -- both x and y step
      have hj1b : j + 1 ≤ b := by
        by_contra hne
        have hjb' : j = b := by omega
        rw [hjb'] at he hdiv1 hdiv2
        have hkb : (k + 1) * b ≤ a * b := mul_le_mul_of_nonneg_right (by omega) hb
        have hexp : (k + 1) * b = k * b + b := by ring
        linarith
      obtain ⟨L', hfuel, hlen, hhead, hlast, hchain⟩ :=
        ih x1 y1 sx sy a b (k+1) (j+1) (e + -b + a) (xc + sx) (yc + sy)
          hsx hsy ha hb hba (by omega) (by omega) (by omega) hj1b (by omega)
          (by rw [hxc]; ring) (by rw [hyc]; ring) (by rw [he]; ring)
          (by nlinarith) (by nlinarith)
      have hL'ne : L' ≠ [] := by
        intro hc
        rw [hc] at hlen
        simp at hlen
      refine ⟨(xc, yc) :: L', ?_, ?_, rfl, ?_, ?_⟩
      · intro g hg
        obtain ⟨g', rfl⟩ : ∃ g', g = g' + 1 := ⟨g - 1, by omega⟩
        simp only [bresAux]
        rw [if_neg hxne, if_pos hxfire, if_pos hxfire, if_pos hyfire,
          if_pos hyfire, hfuel g' (by omega)]
      · simp [hlen]
      · cases L' with
        | nil => exact absurd rfl hL'ne
        | cons p t => rw [List.getLast?_cons_cons]; exact hlast
      · refine List.chain'_cons'.mpr ⟨?_, hchain⟩
        intro q hq
        rw [hhead] at hq
        simp at hq
        rw [← hq]
        exact ⟨rfl, Or.inr rfl⟩
    · -- only x steps
      push_neg at hyfire
      obtain ⟨L', hfuel, hlen, hhead, hlast, hchain⟩ :=
        ih x1 y1 sx sy a b (k+1) j (e + -b) (xc + sx) yc
          hsx hsy ha hb hba (by omega) (by omega) hj0 hjb (by omega)
          (by rw [hxc]; ring) hyc (by rw [he]; ring)
          (by nlinarith) (by nlinarith)
      have hL'ne : L' ≠ [] := by
        intro hc
        rw [hc] at hlen
        simp at hlen
      refine ⟨(xc, yc) :: L', ?_, ?_, rfl, ?_, ?_⟩
      · intro g hg
        obtain ⟨g', rfl⟩ : ∃ g', g = g' + 1 := ⟨g - 1, by omega⟩
        simp only [bresAux]
        rw [if_neg hxne, if_pos hxfire, if_pos hxfire,
          if_neg (not_le.mpr hyfire), if_neg (not_le.mpr hyfire), add_zero,
          hfuel g' (by omega)]
      · simp [hlen]
      · cases L' with
        | nil => exact absurd rfl hL'ne
        | cons p t => rw [List.getLast?_cons_cons]; exact hlast
      · refine List.chain'_cons'.mpr ⟨?_, hchain⟩
        intro q hq
        rw [hhead] at hq
        simp at hq
        rw [← hq]
        exact ⟨rfl, Or.inl rfl⟩

theorem bresAux_swap (f : ℕ) :
    ∀ (x1 y1 sx sy dx dy x0 y0 e : ℤ),
      bresAux x1 y1 sx sy dx dy x0 y0 e f =
        (bresAux y1 x1 sy sx (-dy) (-dx) y0 x0 (-e) f).map (fun p => (p.2, p.1)) := by
  induction f with
  | zero => intro x1 y1 sx sy dx dy x0 y0 e; rfl
  | succ f ih =>
    intro x1 y1 sx sy dx dy x0 y0 e
    simp only [bresAux, List.map_cons]
    by_cases hb : x0 = x1 ∧ y0 = y1
    · rw [if_pos hb, if_pos (show y0 = y1 ∧ x0 = x1 from ⟨hb.2, hb.1⟩)]
      rfl
    · rw [if_neg hb,
        if_neg (show ¬(y0 = y1 ∧ x0 = x1) from fun hc => hb ⟨hc.2, hc.1⟩)]
      have c1 : (-dx ≤ 2 * -e) = (2 * e ≤ dx) := by
        apply propext
        omega
      have c2 : (2 * -e ≤ -dy) = (dy ≤ 2 * e) := by
        apply propext
        omega
      simp only [c1, c2]
      by_cases hcx : dy ≤ 2 * e <;> by_cases hcy : 2 * e ≤ dx
      · simp only [hcx, hcy, ite_true]
        rw [show (-e + -dx + -dy : ℤ) = -(e + dy + dx) by ring]
        exact congrArg _ (ih x1 y1 sx sy dx dy (x0 + sx) (y0 + sy) (e + dy + dx))
      · simp only [hcx, hcy, ite_true, ite_false]
        rw [show (-e + 0 + -dy : ℤ) = -(e + dy + 0) by ring]
        exact congrArg _ (ih x1 y1 sx sy dx dy (x0 + sx) y0 (e + dy + 0))
      · simp only [hcx, hcy, ite_true, ite_false]
        rw [show (-e + -dx + 0 : ℤ) = -(e + 0 + dx) by ring]
        exact congrArg _ (ih x1 y1 sx sy dx dy x0 (y0 + sy) (e + 0 + dx))
      · simp only [hcx, hcy, ite_false]
        rw [show (-e + 0 + 0 : ℤ) = -(e + 0 + 0) by ring]
        exact congrArg _ (ih x1 y1 sx sy dx dy x0 y0 (e + 0 + 0))

theorem nodup_of_proj_chain (L : List (ℤ × ℤ)) (f : ℤ × ℤ → ℤ) (s : ℤ)
    (hs : s = 1 ∨ s = -1)
    (h : List.Chain' (fun p q => f q = f p + s) L) : L.Nodup := by
  have hne : List.Pairwise (fun p q : ℤ × ℤ => f p ≠ f q) L := by
    rcases hs with h1 | h1
    · haveI : IsTrans (ℤ × ℤ) (fun p q => f p < f q) :=
        ⟨fun a b c hab hbc => lt_trans hab hbc⟩
      have hlt : List.Chain' (fun p q : ℤ × ℤ => f p < f q) L :=
        List.Chain'.imp (fun a b hab => by omega) h
      exact (List.chain'_iff_pairwise.mp hlt).imp (fun hab => ne_of_lt hab)
    · haveI : IsTrans (ℤ × ℤ) (fun p q => f q < f p) :=
        ⟨fun a b c hab hbc => lt_trans hbc hab⟩
      have hlt : List.Chain' (fun p q : ℤ × ℤ => f q < f p) L :=
        List.Chain'.imp (fun a b hab => by omega) h
      exact (List.chain'_iff_pairwise.mp hlt).imp (fun hab => ne_of_gt hab)
  exact hne.imp (fun hab heq => absurd (congrArg f heq) hab)

theorem bresPoints_spec (x0 y0 x1 y1 : ℤ) :
    (∀ g : ℕ, (max |x1 - x0| |y1 - y0|).toNat < g →
      bresPointsFuel x0 y0 x1 y1 g = bresPoints x0 y0 x1 y1)
    ∧ (bresPoints x0 y0 x1 y1).length = (max |x1 - x0| |y1 - y0|).toNat + 1
    ∧ (bresPoints x0 y0 x1 y1).head? = some (x0, y0)
    ∧ (bresPoints x0 y0 x1 y1).getLast? = some (x1, y1)
    ∧ List.Chain' chainStep (bresPoints x0 y0 x1 y1)
    ∧ (bresPoints x0 y0 x1 y1).Nodup := by
  have hsx : (if x0 < x1 then (1:ℤ) else -1) = 1 ∨
      (if x0 < x1 then (1:ℤ) else -1) = -1 := by
    by_cases h : x0 < x1 <;> simp [h]
  have hsy : (if y0 < y1 then (1:ℤ) else -1) = 1 ∨
      (if y0 < y1 then (1:ℤ) else -1) = -1 := by
    by_cases h : y0 < y1 <;> simp [h]
  have hxrep : x0 = x1 - (if x0 < x1 then (1:ℤ) else -1) * |x1 - x0| := by
    by_cases h : x0 < x1
    · rw [if_pos h, abs_of_pos (by omega : (0:ℤ) < x1 - x0)]
      ring
    · rw [if_neg h, abs_of_nonpos (by omega : x1 - x0 ≤ 0)]
      ring
  have hyrep : y0 = y1 - (if y0 < y1 then (1:ℤ) else -1) * |y1 - y0| := by
    by_cases h : y0 < y1
    · rw [if_pos h, abs_of_pos (by omega : (0:ℤ) < y1 - y0)]
      ring
    · rw [if_neg h, abs_of_nonpos (by omega : y1 - y0 ≤ 0)]
      ring
  have habx : (0:ℤ) ≤ |x1 - x0| := abs_nonneg _
  have haby : (0:ℤ) ≤ |y1 - y0| := abs_nonneg _
  by_cases hzero : x0 = x1 ∧ y0 = y1
  · -- the two mapped endpoints coincide: one cell
    obtain ⟨hx, hy⟩ := hzero
    have hN : (max |x1 - x0| |y1 - y0|).toNat = 0 := by
      rw [hx, hy]
      simp
    have hallg : ∀ g : ℕ, 0 < g →
        bresPointsFuel x0 y0 x1 y1 g = [(x0, y0)] := by
      intro g hg
      obtain ⟨g', rfl⟩ : ∃ g', g = g' + 1 := ⟨g - 1, by omega⟩
      show bresAux x1 y1 _ _ _ _ x0 y0 _ (g' + 1) = _
      simp only [bresAux]
      rw [if_pos ⟨hx, hy⟩]
    have hbp : bresPoints x0 y0 x1 y1 = [(x0, y0)] :=
      hallg _ (by omega)
    rw [hbp, hN]
    refine ⟨?_, rfl, rfl, by simp [hx, hy], by simp [chainStep], by simp⟩
    intro g hg
    exact hallg g (by omega)
  · rcases le_or_lt |y1 - y0| |x1 - x0| with hba | hab
    · -- x-dominant
      have ha : (0:ℤ) < |x1 - x0| := by
        rcases lt_or_ge 0 |x1 - x0| with h | h
        · exact h
        · have h1 : |x1 - x0| = 0 := le_antisymm h habx
          have h2 : |y1 - y0| = 0 := le_antisymm (by omega) haby
          rw [abs_eq_zero] at h1 h2
          exact absurd ⟨by omega, by omega⟩ hzero
      obtain ⟨L, hfuel, hlen, hhead, hlast, hchain⟩ :=
        bres_master |x1 - x0|.toNat x1 y1
          (if x0 < x1 then (1:ℤ) else -1) (if y0 < y1 then (1:ℤ) else -1)
          |x1 - x0| |y1 - y0| 0 0 (|x1 - x0| + -|y1 - y0|) x0 y0
          hsx hsy ha haby hba (le_refl 0) habx (le_refl 0) haby
          (by omega) (by rw [sub_zero]; exact hxrep)
          (by rw [sub_zero]; exact hyrep) (by ring)
          (by nlinarith) (by nlinarith)
      have hNx : (max |x1 - x0| |y1 - y0|).toNat = |x1 - x0|.toNat := by
        omega
      have hfuel' : ∀ g : ℕ, |x1 - x0|.toNat < g →
          bresPointsFuel x0 y0 x1 y1 g = L := fun g hg => hfuel g hg
      have hbp : bresPoints x0 y0 x1 y1 = L := by
        rw [bresPoints]
        exact hfuel' _ (by omega)
      rw [hbp, hNx]
      refine ⟨fun g hg => hfuel' g (by omega), hlen, hhead, hlast, ?_, ?_⟩
      · refine List.Chain'.imp ?_ hchain
        intro p q hpq
        obtain ⟨h1, h2⟩ := hpq
        constructor
        · rcases hsx with h | h <;> rw [h] at h1 <;> rw [h1] <;> simp
        · rcases h2 with h2 | h2
          · rw [h2]
            simp
          · rcases hsy with h | h <;> rw [h] at h2 <;> rw [h2] <;> simp
      · refine nodup_of_proj_chain L Prod.fst _ hsx ?_
        exact List.Chain'.imp (fun a b hab => hab.1) hchain
    · -- y-dominant: use the swap symmetry
      have ha : (0:ℤ) < |y1 - y0| := lt_of_le_of_lt habx hab
      obtain ⟨L, hfuel, hlen, hhead, hlast, hchain⟩ :=
        bres_master |y1 - y0|.toNat y1 x1
          (if y0 < y1 then (1:ℤ) else -1) (if x0 < x1 then (1:ℤ) else -1)
          |y1 - y0| |x1 - x0| 0 0 (|y1 - y0| + -|x1 - x0|) y0 x0
          hsy hsx ha habx (le_of_lt hab) (le_refl 0) haby (le_refl 0) habx
          (by omega) (by rw [sub_zero]; exact hyrep)
          (by rw [sub_zero]; exact hxrep) (by ring)
          (by nlinarith) (by nlinarith)
      have hNy : (max |x1 - x0| |y1 - y0|).toNat = |y1 - y0|.toNat := by
        omega
      have hfuel' : ∀ g : ℕ, |y1 - y0|.toNat < g →
          bresPointsFuel x0 y0 x1 y1 g = L.map (fun p => (p.2, p.1)) := by
        intro g hg
        rw [show bresPointsFuel x0 y0 x1 y1 g =
            (bresAux y1 x1 (if y0 < y1 then (1:ℤ) else -1)
              (if x0 < x1 then (1:ℤ) else -1) (-(-|y1 - y0|)) (-|x1 - x0|)
              y0 x0 (-(|x1 - x0| + -|y1 - y0|)) g).map (fun p => (p.2, p.1))
          from bresAux_swap g x1 y1 _ _ |x1 - x0| (-|y1 - y0|) x0 y0 _,
          show (-(-|y1 - y0|)) = |y1 - y0| by ring,
          show (-(|x1 - x0| + -|y1 - y0|)) = |y1 - y0| + -|x1 - x0| by ring,
          hfuel g hg]
      have hbp : bresPoints x0 y0 x1 y1 = L.map (fun p => (p.2, p.1)) := by
        rw [bresPoints]
        exact hfuel' _ (by omega)
      rw [hbp, hNy]
      refine ⟨fun g hg => hfuel' g (by omega), by simp [hlen], ?_, ?_, ?_, ?_⟩
      · rw [List.head?_map, hhead]
        rfl
      · rw [List.getLast?_map, hlast]
        rfl
      · rw [List.chain'_map]
        refine List.Chain'.imp ?_ hchain
        intro p q hpq
        obtain ⟨h1, h2⟩ := hpq
        constructor
        · rcases h2 with h2 | h2
          · rw [h2]
            simp
          · rcases hsx with h | h <;> rw [h] at h2 <;> rw [h2] <;> simp
        · rcases hsy with h | h <;> rw [h] at h1 <;> rw [h1] <;> simp
      · refine List.Nodup.map ?_ ?_
        · intro p q hpq
          have h1 : p.2 = q.2 := congrArg Prod.fst hpq
          have h2 : p.1 = q.1 := congrArg Prod.snd hpq
          exact Prod.ext h2 h1
        · refine nodup_of_proj_chain L Prod.fst _ hsy ?_
          exact List.Chain'.imp (fun a b hab => hab.1) hchain

/-- C6.  For every line segment, the Bresenham loop of
`draw_line_segment` terminates: any fuel beyond `max |dx| |dy|` (with dx,
dy the coordinate differences of the mapped integer endpoints) yields the
same complete traversal.  That traversal visits exactly
`max |dx| |dy| + 1` pairwise distinct cells, every visited cell is
written with the chosen glyph and no color, consecutive visited cells
differ by at most one in each axis (a gap-free 8-connected path), and the
first and last cells are the mapped start and end cells. -/
theorem bresenham_line_coverage (scale : ℚ) (p0 p1 : Point) (ch : Char) :
    (draw_line_segment_writes scale p0 p1 ch).map (fun w => (w.1, w.2.1)) =
      bresPoints (to_ixy scale p0).1 (to_ixy scale p0).2
        (to_ixy scale p1).1 (to_ixy scale p1).2
    ∧ (∀ w ∈ draw_line_segment_writes scale p0 p1 ch,
        w.2.2.1 = ch ∧ w.2.2.2 = none)
    ∧ (draw_line_segment_writes scale p0 p1 ch).length =
        (max |(to_ixy scale p1).1 - (to_ixy scale p0).1|
             |(to_ixy scale p1).2 - (to_ixy scale p0).2|).toNat + 1
    ∧ (bresPoints (to_ixy scale p0).1 (to_ixy scale p0).2
        (to_ixy scale p1).1 (to_ixy scale p1).2).head? = some (to_ixy scale p0)
    ∧ (bresPoints (to_ixy scale p0).1 (to_ixy scale p0).2
        (to_ixy scale p1).1 (to_ixy scale p1).2).getLast? = some (to_ixy scale p1)
    ∧ List.Chain' chainStep (bresPoints (to_ixy scale p0).1 (to_ixy scale p0).2
        (to_ixy scale p1).1 (to_ixy scale p1).2)
    ∧ (bresPoints (to_ixy scale p0).1 (to_ixy scale p0).2
        (to_ixy scale p1).1 (to_ixy scale p1).2).Nodup
    ∧ (∀ g : ℕ,
        (max |(to_ixy scale p1).1 - (to_ixy scale p0).1|
             |(to_ixy scale p1).2 - (to_ixy scale p0).2|).toNat < g →
        bresPointsFuel (to_ixy scale p0).1 (to_ixy scale p0).2
          (to_ixy scale p1).1 (to_ixy scale p1).2 g =
        bresPoints (to_ixy scale p0).1 (to_ixy scale p0).2
          (to_ixy scale p1).1 (to_ixy scale p1).2) := by
  obtain ⟨hf, hlen, hhead, hlast, hchain, hnd⟩ :=
    bresPoints_spec (to_ixy scale p0).1 (to_ixy scale p0).2
      (to_ixy scale p1).1 (to_ixy scale p1).2
  refine ⟨?_, ?_, ?_, hhead, hlast, hchain, hnd, hf⟩
  · simp only [draw_line_segment_writes, List.map_map]
    have hcomp : ((fun w : SetCall => (w.1, w.2.1)) ∘
        fun q : ℤ × ℤ => (q.1, q.2, ch, none)) = id := funext fun q => rfl
    rw [hcomp, List.map_id]
  · intro w hw
    simp only [draw_line_segment_writes, List.mem_map] at hw
    obtain ⟨q, _, rfl⟩ := hw
    exact ⟨rfl, rfl⟩
  · simp only [draw_line_segment_writes, List.length_map]
    exact hlen

/-- C6 witness: the segment mapped to cells (0, 0) – (3, 1) at scale 1,
with the termination bound discharged at fuel 4. -/
theorem bresenham_line_coverage_witness :
    (max |(to_ixy 1 (3, 1)).1 - (to_ixy 1 (0, 0)).1|
         |(to_ixy 1 (3, 1)).2 - (to_ixy 1 (0, 0)).2|).toNat < 4
    ∧ bresPointsFuel (to_ixy 1 (0, 0)).1 (to_ixy 1 (0, 0)).2
        (to_ixy 1 (3, 1)).1 (to_ixy 1 (3, 1)).2 4 =
      bresPoints (to_ixy 1 (0, 0)).1 (to_ixy 1 (0, 0)).2
        (to_ixy 1 (3, 1)).1 (to_ixy 1 (3, 1)).2 := by
  have h1 : to_ixy 1 (3, 1) = (3, 1) := by
    norm_num [to_ixy, roundHalfAway]
  have h0 : to_ixy 1 (0, 0) = (0, 0) := by
    norm_num [to_ixy, roundHalfAway]
  have hN : (max |(to_ixy 1 (3, 1)).1 - (to_ixy 1 (0, 0)).1|
      |(to_ixy 1 (3, 1)).2 - (to_ixy 1 (0, 0)).2|).toNat = 3 := by
    rw [h1, h0]
    decide
  refine ⟨by omega, ?_⟩
  exact (bresenham_line_coverage 1 (0, 0) (3, 1) 'x').2.2.2.2.2.2.2 4 (by omega)
